import Mathlib

/-!
# hashgen: block-parallel hashing pipeline and manifest synchronisation

A shallow embedding of `src/hashgen.go` and the properties of it that the
specification states.

Conventions of the embedding

* A Go `string` is the list of its characters (`GoString`); the order on
  `GoString` is the lexicographic order by code point, which is the order Go's
  `<` gives on UTF-8 text. A Go `[]byte` is a `List UInt8`; `nil` is `[]`.
* `crypto/sha1` is a library outside the repository: the digest function is the
  parameter `sha1 : Bytes → Bytes` of every definition that hashes, and a
  `hash.Hash` is modelled by the bytes written to it so far.
* A Go `map` is an association list; ranging over the map visits the entries in
  the order of the list, and a theorem that holds for every list holds for
  every iteration order the runtime may choose.
* A function that can stop the program returns `Except Stop`.
* `main` builds the path of a file with `fmt.Sprintf`, the path being the
  format and there being no operand; `Sprintf` follows `doPrintf` of package
  `fmt` for that case, and `filePath` is the path a name gets.
* The worker pool is seen from `fileCutter`: the blocks sent to it come back
  hashed, one result each, in an order the environment chooses. The progress
  prints and the start and stop of the workers are left out.
-/

namespace Hashgen

/-! ## Data model -/

/-- Go `string`, as the list of its characters. -/
abbrev GoString := List Char

/-- Go `[]byte`. -/
abbrev Bytes := List UInt8

/-- The constant `BUFFER = 1e6` (line 16). -/
def BUFFER : Nat := 1000000

/-- The struct `Block` (lines 20-24). `Index` is a Go `int`; it only counts the
blocks of one file upwards from zero, so it is a natural number here. -/
structure Block where
  Index : Nat
  Body : Bytes
  Hash : Bytes
deriving DecidableEq, Repr

/-- The struct `Options` (lines 26-31). -/
structure Options where
  All : Bool
  New : Bool
  Clear : Bool
  Quiet : Bool
deriving DecidableEq, Repr

/-- Ways in which the program stops without finishing the call at hand:
`fatal` is `log.Fatal` (exit status 1), `panic` is a Go run-time panic
(index out of range), `exit` is `os.Exit(0)`, and `blocked` is a channel
receive that can never be served. -/
inductive Stop where
  | fatal
  | panic
  | exit
  | blocked
deriving DecidableEq, Repr

/-- The error value of a read: `io.EOF` or any other error. -/
inductive ReadErr where
  | EOF
  | other
deriving DecidableEq, Repr

/-- What one call `file.Read(buf)` returns: the count `n` and the error. -/
structure ReadResult where
  n : Nat
  err : Option ReadErr
deriving DecidableEq, Repr

deriving instance DecidableEq for Except

/-! ## Go maps -/

/-- Go `map[κ]ν` as an association list. -/
structure GoMap (κ ν : Type) where
  entries : List (κ × ν)
deriving DecidableEq, Repr

namespace GoMap

variable {κ ν : Type} [DecidableEq κ]

/-- Call `make(map[κ]ν)`. -/
def empty : GoMap κ ν := ⟨[]⟩

/-- Lookup `v, ok := m[k]`. -/
def get? (m : GoMap κ ν) (k : κ) : Option ν :=
  (m.entries.find? (fun e => decide (e.1 = k))).map Prod.snd

/-- Lookup `m[k]`, with the zero value `z` for a missing key. -/
def getD (m : GoMap κ ν) (k : κ) (z : ν) : ν := (m.get? k).getD z

/-- The builtin `delete(m, k)`. -/
def delete (m : GoMap κ ν) (k : κ) : GoMap κ ν :=
  ⟨m.entries.filter (fun e => decide (e.1 ≠ k))⟩

/-- Assignment `m[k] = v`. -/
def set (m : GoMap κ ν) (k : κ) (v : ν) : GoMap κ ν := ⟨(k, v) :: (m.delete k).entries⟩

/-- The keys, in the order `for k := range m` visits them. -/
def keys (m : GoMap κ ν) : List κ := m.entries.map Prod.fst

end GoMap

/-! ## The hash and its rendering -/

/-- A `hash.Hash` under construction: the bytes written to it so far. -/
structure Hasher where
  written : Bytes
deriving DecidableEq, Repr

/-- Call `sha1.New()`. -/
def sha1New : Hasher := ⟨[]⟩

/-- Method `hasher.Write(p)`: the hash state absorbs `p` after what it has. -/
def Hasher.Write (h : Hasher) (p : Bytes) : Hasher := ⟨h.written ++ p⟩

/-- Method `hasher.Sum(nil)`: the digest of everything written. -/
def Hasher.Sum (sha1 : Bytes → Bytes) (h : Hasher) : Bytes := sha1 h.written

/-- The digit table `ldigits` of package `fmt`, used for the verb `%x`. -/
def ldigits : List Char := "0123456789abcdefx".toList

/-- One byte under `%x`: high nibble, low nibble. -/
def hexByte (b : UInt8) : GoString :=
  [ldigits.getD (b.toNat / 16) '0', ldigits.getD (b.toNat % 16) '0']

/-- Call `fmt.Sprintf("%x", sum)` for a byte slice: lowercase hexadecimal. -/
def sprintfHex (sum : Bytes) : GoString := (sum.map hexByte).flatten

/-! ## fileCutter and blockHasher (lines 63-122) -/

/-- The read loop of `fileCutter` (lines 75-89), as the list of blocks sent on
channel `b` and the final value of `parts`.

`rest` is what the file still holds past the current offset and `reads i` is
the result the environment scripts for the read issued when `parts = i`; a
read can deliver neither more than the buffer holds nor more than the file has
left, so the count the code sees is `min (reads i).n (min B rest.length)`. The
buffer then starts with that many bytes of the file, and lines 82-84 leave
exactly them as the body.

The first argument is fuel for the `for` loop; `dispatch` supplies enough. -/
def readLoop (B : Nat) (reads : Nat → ReadResult) :
    Nat → Nat → Bytes → Except Stop (List Block × Nat)
  | 0, _, _ => .error .blocked
  | fuel + 1, parts, rest =>
    let n := min (reads parts).n (min B rest.length)
    let err := (reads parts).err
    if n = 0 ∨ err = some ReadErr.EOF then
      .ok ([], parts)
    else
      match readLoop B reads fuel (parts + 1) (rest.drop n) with
      | .ok (sent, total) => .ok (⟨parts, rest.take n, []⟩ :: sent, total)
      | .error e => .error e

/-- The read loop started on a whole file with `parts = 0`. Every iteration
that does not leave the loop consumes at least one byte, so `data.length + 1`
iterations are enough. -/
def dispatch (B : Nat) (reads : Nat → ReadResult) (data : Bytes) :
    Except Stop (List Block × Nat) :=
  readLoop B reads (data.length + 1) 0 data

/-- What `blockHasher` does to one block (lines 112-117): hash the body, drop
the body, send the block on the checksum channel. -/
def blockHasher (sha1 : Bytes → Bytes) (block : Block) : Block :=
  let hasher := sha1New
  let hasher := hasher.Write block.Body
  { block with Hash := hasher.Sum sha1, Body := [] }

/-- Lines 90-92: wait for `parts` completion signals, of which the pool sends
`signals`. -/
def waitCompleted (parts signals : Nat) : Except Stop Unit :=
  if signals < parts then .error .blocked else .ok ()

/-- Lines 95-98: receive `parts` results from the checksum channel, which
delivers `cs` in this order, into the map `blocks`. -/
def recvChecksums : Nat → List Block → GoMap Nat Bytes → Except Stop (GoMap Nat Bytes)
  | 0, _, blocks => .ok blocks
  | _ + 1, [], _ => .error .blocked
  | n + 1, temp :: cs, blocks => recvChecksums n cs (blocks.set temp.Index temp.Hash)

/-- Lines 99-101: write `blocks[0]`, ..., `blocks[parts-1]` to the hasher; a
missing key reads as the nil slice. -/
def feedBlocks (blocks : GoMap Nat Bytes) (parts : Nat) (hasher : Hasher) : Hasher :=
  (List.range parts).foldl (fun h i => h.Write (blocks.getD i [])) hasher

/-- Lines 90-103 of `fileCutter`: the aggregation of the results, where
`results` is the sequence of blocks the workers send on the checksum channel
(each with one completion signal), in order of arrival. -/
def aggregate (sha1 : Bytes → Bytes) (parts : Nat) (results : List Block) :
    Except Stop GoString := do
  waitCompleted parts results.length
  let hasher := sha1New
  let blocks ← recvChecksums parts results GoMap.empty
  let hasher := feedBlocks blocks parts hasher
  let sum := hasher.Sum sha1
  return sprintfHex sum

/-- The environment of one call of `fileCutter`: whether `os.OpenFile`
succeeds, the bytes of the file, the results its reads return, and the order
in which the worker pool delivers the results of the blocks it was sent. -/
structure FileEnv where
  openOk : Bool
  data : Bytes
  reads : Nat → ReadResult
  arrive : List Block → List Block

/-- The method `fileCutter` (lines 63-104) with buffer size `B`. -/
def fileCutter (sha1 : Bytes → Bytes) (B : Nat) (env : FileEnv) : Except Stop GoString := do
  if !env.openOk then throw Stop.fatal
  let (sent, parts) ← dispatch B env.reads env.data
  aggregate sha1 parts (env.arrive (sent.map (blockHasher sha1)))

/-- A read that fills the buffer as far as the file has bytes left and reports
no error: what a regular file gives until its end is reached. -/
def fullRead (B : Nat) : Nat → ReadResult := fun _ => ⟨B, none⟩

/-! ## Strings: the library calls the manifest code makes -/

/-- The separator of a manifest record: three spaces. -/
def sep3 : GoString := [' ', ' ', ' ']

/-- The line terminator of a manifest record. -/
def CRLF : GoString := ['\r', '\n']

/-- The name of the manifest file. -/
def dotSha1 : GoString := ['.', 's', 'h', 'a', '1']

/-- Worker of `Split`: the first argument counts the characters of a separator
just matched that are still to be skipped. -/
def splitGo (sep : GoString) : Nat → GoString → List GoString
  | _, [] => [[]]
  | skip + 1, _ :: cs => splitGo sep skip cs
  | 0, c :: cs =>
    if sep.isPrefixOf (c :: cs) then
      [] :: splitGo sep (sep.length - 1) cs
    else
      match splitGo sep 0 cs with
      | f :: fs => (c :: f) :: fs
      | [] => [[c]]

/-- Call `strings.Split(s, sep)` for a non-empty `sep`: the pieces of `s`
between the occurrences of `sep`, found from the left without overlap. -/
def Split (s sep : GoString) : List GoString := splitGo sep 0 s

/-- Call `strings.TrimRight(s, cutset)`: drop every trailing character that is
in `cutset`. -/
def TrimRight (s cutset : GoString) : GoString :=
  s.rdropWhile (fun c => decide (c ∈ cutset))

/-- The results of the successive calls `rd.ReadString(delim)` on a reader over
`text`: every delimited line with its delimiter and a nil error, then what is
left with `io.EOF`. -/
def readStrings (delim : Char) : GoString → List (GoString × Option ReadErr)
  | [] => [([], some ReadErr.EOF)]
  | c :: cs =>
    if c = delim then
      ([c], none) :: readStrings delim cs
    else
      match readStrings delim cs with
      | (l, e) :: t => (c :: l, e) :: t
      | [] => [([c], some ReadErr.EOF)]

/-- Call `sort.Strings`: ascending order of Go's string comparison. -/
def sortStrings (names : List GoString) : List GoString :=
  names.insertionSort (fun a b => a ≤ b)

/-! ## fmt.Sprintf with a format and no operands

`main` builds the path of a file with `fmt.Sprintf(req.Source + sep + v)`: the
whole path is the format and there are no operands. What follows is
`doPrintf` of package `fmt` for an empty operand list, where the operand
counter stays at zero and no operand index is in range. -/

/-- The state of `doPrintf` inside one verb: the format still to be read, the
text written for the verb so far, and the flags `goodArgNum` and `afterIndex`. -/
structure VerbState where
  rest : GoString
  out : GoString
  goodArgNum : Bool
  afterIndex : Bool
deriving DecidableEq, Repr

/-- The function `parsenum` of `fmt` from the start of a text, with the number
read so far and whether a digit was read: `none` when the number is too large
(the code then moves to the end of its range), else whether a digit was read
and the text after the digits. -/
def parsenum : Nat → Bool → GoString → Option (Bool × GoString)
  | _, isnum, [] => some (isnum, [])
  | num, isnum, c :: cs =>
    if '0' ≤ c ∧ c ≤ '9' then
      if 1000000 < num then none
      else parsenum (num * 10 + (c.toNat - 48)) true cs
    else some (isnum, c :: cs)

/-- The function `parseArgNumber` of `fmt` on a text that starts with `[`: the
number of characters the index takes and whether it is a number in brackets. -/
def parseArgNumber (s : GoString) : Nat × Bool :=
  if s.length < 3 then (1, false)
  else
    let inner := (s.drop 1).takeWhile (fun c => decide (c ≠ ']'))
    if inner.length + 1 < s.length then
      (inner.length + 2, decide (parsenum 0 false inner = some (true, [])))
    else (1, false)

/-- The method `argNumber` of `fmt` when there is no operand: an index in
brackets is skipped and is never good. -/
def argNumber (st : VerbState) : VerbState :=
  match st.rest with
  | '[' :: _ =>
    { st with rest := st.rest.drop (parseArgNumber st.rest).1, goodArgNum := false,
              afterIndex := (parseArgNumber st.rest).2 }
  | _ => { st with afterIndex := false }

/-- Whether a character is one of the flags `#`, `0`, `+`, `-` and space. -/
def isFlag (c : Char) : Bool :=
  decide (c = '#' ∨ c = '0' ∨ c = '+' ∨ c = '-' ∨ c = ' ')

/-- The flags after the percent sign. -/
def verbFlags (st : VerbState) : VerbState :=
  { st with rest := st.rest.dropWhile isFlag }

/-- The width: a star finds no operand, a number is read. -/
def verbWidth (st : VerbState) : VerbState :=
  match st.rest with
  | '*' :: rest =>
    { st with rest := rest, out := st.out ++ "%!(BADWIDTH)".toList, afterIndex := false }
  | _ =>
    match parsenum 0 false st.rest with
    | none => { st with rest := [] }
    | some (widPresent, rest) =>
      { st with rest := rest,
                goodArgNum := if st.afterIndex && widPresent then false else st.goodArgNum }

/-- The precision, after a dot. -/
def verbPrec (st : VerbState) : VerbState :=
  match st.rest with
  | '.' :: rest =>
    let st1 := argNumber
      { st with rest := rest, goodArgNum := if st.afterIndex then false else st.goodArgNum }
    match st1.rest with
    | '*' :: rest1 =>
      { st1 with rest := rest1, out := st1.out ++ "%!(BADPREC)".toList, afterIndex := false }
    | _ =>
      match parsenum 0 false st1.rest with
      | none => { st1 with rest := [] }
      | some (_, rest1) => { st1 with rest := rest1 }
  | _ => st

/-- The operand index that may stand right before the verb. -/
def verbIndex (st : VerbState) : VerbState :=
  if st.afterIndex then st else argNumber st

/-- The verb itself: what is written for it and the format that is left. A
doubled percent sign writes one; any other verb finds no operand. -/
def verbEnd (st : VerbState) : GoString × GoString :=
  match st.rest with
  | [] => (st.out ++ "%!(NOVERB)".toList, [])
  | verb :: rest =>
    if verb = '%' then (st.out ++ ['%'], rest)
    else if !st.goodArgNum then (st.out ++ "%!".toList ++ [verb] ++ "(BADINDEX)".toList, rest)
    else (st.out ++ "%!".toList ++ [verb] ++ "(MISSING)".toList, rest)

/-- One verb of the format, read from right after its percent sign. -/
def printVerb (s : GoString) : GoString × GoString :=
  verbEnd (verbIndex (verbPrec (verbWidth (argNumber (verbFlags ⟨s, [], true, false⟩)))))

/-- The loop of `doPrintf`: text is copied up to a percent sign, then one verb
is read. The first argument is fuel; every step shortens the format. -/
def doPrintf : Nat → GoString → GoString
  | 0, _ => []
  | _ + 1, [] => []
  | fuel + 1, c :: cs =>
    if c = '%' then (printVerb cs).1 ++ doPrintf fuel (printVerb cs).2
    else c :: doPrintf fuel cs

/-- Call `fmt.Sprintf(format)` without operands. -/
def Sprintf (format : GoString) : GoString := doPrintf (format.length + 1) format

/-! ## The manifest file -/

/-- An open `os.File`: its content and the offset of the next write. -/
structure File where
  data : GoString
  pos : Nat
deriving DecidableEq, Repr

/-- Method `Truncate(size)`. -/
def File.Truncate (f : File) (size : Nat) : File :=
  { f with data := f.data.take size ++ List.replicate (size - f.data.length) (Char.ofNat 0) }

/-- Method `Seek(offset, 0)`. -/
def File.Seek (f : File) (offset : Nat) : File := { f with pos := offset }

/-- Method `WriteString(s)`: write at the offset, filling a gap with NUL. -/
def File.WriteString (f : File) (s : GoString) : File :=
  { data := f.data.take f.pos ++ List.replicate (f.pos - f.data.length) (Char.ofNat 0) ++ s
      ++ f.data.drop (f.pos + s.length),
    pos := f.pos + s.length }

/-- The record `fmt.Sprintf("%s   %s\r\n", sum, name)` (line 210). -/
def record (sum name : GoString) : GoString := sum ++ sep3 ++ name ++ CRLF

/-- The function `RewriteShaFile` (lines 199-213); the system calls succeed. -/
def RewriteShaFile (shaFile : File) (shaMap : GoMap GoString GoString) : File :=
  let shaFile := shaFile.Truncate 0
  let shaFile := shaFile.Seek 0
  let shaNames := shaMap.keys.foldl (fun names k => names ++ [k]) []
  let shaNames := sortStrings shaNames
  shaNames.foldl (fun f v => f.WriteString (record (shaMap.getD v []) v)) shaFile

/-- The loop that parses the manifest (lines 280-292) over the results `rd` of
`ReadString`; a reader that is exhausted keeps answering `io.EOF`. -/
def loadLoop : List (GoString × Option ReadErr) → GoMap GoString GoString →
    Except Stop (GoMap GoString GoString)
  | [], shaMap => .ok shaMap
  | (line, err) :: rd, shaMap =>
    let line := TrimRight line CRLF
    match err with
    | some ReadErr.EOF => .ok shaMap
    | some ReadErr.other => .error Stop.fatal
    | none =>
      let hash := Split line sep3
      match hash[1]?, hash[0]? with
      | some name, some sum => loadLoop rd (shaMap.set name sum)
      | _, _ => .error Stop.panic

/-- The manifest loader of `main` (lines 276-292) on the text of `.sha1`. -/
def loadManifest (text : GoString) : Except Stop (GoMap GoString GoString) :=
  loadLoop (readStrings '\n' text) GoMap.empty

/-! ## main: the file sets and the modes (lines 294-374) -/

/-- Lines 295-300: remove the first entry equal to `.sha1` from `files`. -/
def removeSha1 : List GoString → List GoString
  | [] => []
  | v :: rest => if v = dotSha1 then rest else v :: removeSha1 rest

/-- Lines 303-309: the files without an entry in `shaMap`. -/
def computeNews (files : List GoString) (shaMap : GoMap GoString GoString) : List GoString :=
  files.foldl (fun news v => if (shaMap.get? v).isSome then news else news ++ [v]) []

/-- Worker of `Find`: the search from position `i` on. -/
def findFrom (i : Nat) : List GoString → GoString → Int × Bool
  | [], _ => (-1, false)
  | item :: rest, val => if item = val then ((i : Int), true) else findFrom (i + 1) rest val

/-- The function `Find` (lines 184-191). -/
def Find (slice : List GoString) (val : GoString) : Int × Bool := findFrom 0 slice val

/-- Lines 312-317: the keys of `shaMap` that are not among `files`. -/
def computeOrphans (files : List GoString) (shaMap : GoMap GoString GoString) : List GoString :=
  shaMap.keys.foldl (fun orphans k => if (Find files k).2 then orphans else orphans ++ [k]) []

/-- The function `ClearOrphans` (lines 193-197). -/
def ClearOrphans (orphans : List GoString) (shaMap : GoMap GoString GoString) :
    GoMap GoString GoString :=
  orphans.foldl (fun m v => m.delete v) shaMap

/-- The struct `Required` (lines 33-35). -/
structure Required where
  Source : GoString
deriving DecidableEq, Repr

/-- The path `fmt.Sprintf(req.Source + string(os.PathSeparator) + v)` that lines
358 and 369 build for the file named `v`; `sep` is `os.PathSeparator`. The
name is part of the format string. -/
def filePath (sep : Char) (req : Required) (v : GoString) : GoString :=
  Sprintf (req.Source ++ [sep] ++ v)

/-- The state `main` carries through its modes: the mapping, the manifest file,
and the paths handed to `fileCutter` so far, in order. -/
structure Run where
  shaMap : GoMap GoString GoString
  shaFile : File
  hashed : List GoString
deriving DecidableEq, Repr

/-- The loop `for _, v := range ... { shaMap[v] = fc.fileCutter(path, ...) }`
(lines 357-361 and 368-372); `fc path` is what `fileCutter` does when it is
given `path`. -/
def hashEach (fc : GoString → Except Stop GoString) (sep : Char) (req : Required) :
    List GoString → Run → Except Stop Run
  | [], st => .ok st
  | v :: vs, st =>
    let path := filePath sep req v
    match fc path with
    | .ok sum =>
      hashEach fc sep req vs
        { st with shaMap := st.shaMap.set v sum, hashed := st.hashed ++ [path] }
    | .error e => .error e

/-- Lines 321-328: the mode of option `-c`. -/
def clearMode (opt : Options) (orphans : List GoString) (st : Run) : Except Stop Run :=
  if opt.Clear then
    let shaMap := ClearOrphans orphans st.shaMap
    let shaFile := RewriteShaFile st.shaFile shaMap
    if !opt.All && !opt.New then .error Stop.exit
    else .ok { st with shaMap := shaMap, shaFile := shaFile }
  else .ok st

/-- Lines 355-363 and 366-374: a recompute mode, run when `enabled`, over the
files `todo`. -/
def hashMode (enabled : Bool) (fc : GoString → Except Stop GoString) (sep : Char)
    (req : Required) (orphans todo : List GoString) (st : Run) : Except Stop Run :=
  if enabled then
    match hashEach fc sep req todo { st with shaMap := ClearOrphans orphans st.shaMap } with
    | .ok st => .ok { st with shaFile := RewriteShaFile st.shaFile st.shaMap }
    | .error e => .error e
  else .ok st

/-- Lines 294-374 of `main`: from the directory listing `files`, the loaded
mapping and the open manifest file to the final state. -/
def mainModes (opt : Options) (fc : GoString → Except Stop GoString) (sep : Char)
    (req : Required) (files : List GoString)
    (shaMap : GoMap GoString GoString) (shaFile : File) : Except Stop Run :=
  let files := removeSha1 files
  let news := computeNews files shaMap
  let orphans := computeOrphans files shaMap
  match clearMode opt orphans ⟨shaMap, shaFile, []⟩ with
  | .error e => .error e
  | .ok st =>
    match hashMode opt.All fc sep req orphans files st with
    | .error e => .error e
    | .ok st => hashMode opt.New fc sep req orphans news st

/-- Lines 265-374 of `main`: load the manifest whose text is `text` (the file
that line 269 opens), then run the modes; the reader has consumed the file, so
its offset is at the end. -/
def mainRun (opt : Options) (fc : GoString → Except Stop GoString) (sep : Char)
    (req : Required) (files : List GoString) (text : GoString) : Except Stop Run :=
  match loadManifest text with
  | .ok shaMap => mainModes opt fc sep req files shaMap ⟨text, text.length⟩
  | .error e => .error e

/-- The loop of `Checkout` over the arguments (lines 148-168). Indexing `v[0]`
of an empty argument or `v[1]` of the argument `-` panics; `-h` and an unknown
flag print the help and exit. -/
def checkoutArgs : List GoString → Options → List GoString →
    Except Stop (Options × List GoString)
  | [], opt, tail => .ok (opt, tail)
  | v :: args, opt, tail =>
    match v with
    | [] => .error Stop.panic
    | '-' :: flag =>
      match flag with
      | [] => .error Stop.panic
      | 'h' :: _ => .error Stop.exit
      | 'a' :: _ => checkoutArgs args { opt with All := true } tail
      | 'c' :: _ => checkoutArgs args { opt with Clear := true } tail
      | 'q' :: _ => checkoutArgs args { opt with Quiet := true } tail
      | _ :: _ => .error Stop.exit
    | _ :: _ => checkoutArgs args opt (tail ++ [v])

/-- The function `Checkout` (lines 142-182) together with the check `main`
makes of its error (lines 248-251): the options and the required source.
`readDirOk` tells whether `os.ReadDir` succeeds on a path. -/
def Checkout (readDirOk : GoString → Bool) (args : List GoString) :
    Except Stop (Options × Required) :=
  if args.length = 0 then .error Stop.exit
  else
    match checkoutArgs args ⟨false, false, false, false⟩ [] with
    | .error e => .error e
    | .ok (opt, tail) =>
      let opt := if !opt.All then { opt with New := true } else opt
      match tail with
      | [source] =>
        let source := TrimRight source ['/', '\\']
        if readDirOk source then .ok (opt, ⟨source⟩) else .error Stop.fatal
      | _ => .error Stop.exit

/-- The call `fc.fileCutter(path, ...)` of `main`; `env path` is what the file
system gives for `path`: whether it opens, and the bytes and reads if so. -/
def cutter (sha1 : Bytes → Bytes) (env : GoString → FileEnv) (path : GoString) :
    Except Stop GoString :=
  fileCutter sha1 BUFFER (env path)

/-! ## Predicates used to state the properties -/

/-- A file name that a manifest record can carry: it contains neither the
separator nor a line feed and does not end in a carriage return. -/
def NameFits (name : GoString) : Prop :=
  ¬ sep3 <:+: name ∧ '\n' ∉ name ∧ name.getLast? ≠ some '\r'

/-- A digest text that a manifest record can carry: it contains neither the
separator nor a line feed and does not end in a space. -/
def SumFits (sum : GoString) : Prop :=
  ¬ sep3 <:+: sum ∧ '\n' ∉ sum ∧ sum.getLast? ≠ some ' '

instance : DecidablePred NameFits := fun _ => by unfold NameFits; infer_instance

instance : DecidablePred SumFits := fun _ => by unfold SumFits; infer_instance

/-! ## Lemmas on Go maps -/

namespace GoMap

variable {κ ν : Type} [DecidableEq κ]

theorem get?_nil (k : κ) : (⟨[]⟩ : GoMap κ ν).get? k = none := rfl

theorem get?_cons (a : κ) (b : ν) (t : List (κ × ν)) (k : κ) :
    (⟨(a, b) :: t⟩ : GoMap κ ν).get? k = if a = k then some b else (⟨t⟩ : GoMap κ ν).get? k := by
  by_cases h : a = k <;> simp [get?, List.find?_cons, h]

theorem delete_cons (a : κ) (b : ν) (t : List (κ × ν)) (k : κ) :
    (⟨(a, b) :: t⟩ : GoMap κ ν).delete k
      = if a = k then (⟨t⟩ : GoMap κ ν).delete k
        else ⟨(a, b) :: ((⟨t⟩ : GoMap κ ν).delete k).entries⟩ := by
  by_cases h : a = k <;> simp [delete, List.filter_cons, h]

theorem get?_delete (m : GoMap κ ν) (k j : κ) :
    (m.delete k).get? j = if j = k then none else m.get? j := by
  obtain ⟨l⟩ := m
  induction l with
  | nil => simp [delete, get?]
  | cons e t ih =>
    obtain ⟨a, b⟩ := e
    rw [delete_cons]
    by_cases hk : a = k
    · rw [if_pos hk, ih, get?_cons]
      by_cases hj : j = k
      · simp [hj]
      · have : ¬ a = j := fun e => hj (e ▸ hk)
        simp [hj, this]
    · rw [if_neg hk, get?_cons, get?_cons, ih]
      by_cases hj : a = j
      · have : ¬ j = k := fun e => hk (hj ▸ e)
        simp [hj, this]
      · simp [hj]

theorem get?_set (m : GoMap κ ν) (k j : κ) (v : ν) :
    (m.set k v).get? j = if j = k then some v else m.get? j := by
  rw [set, get?_cons]
  by_cases h : k = j
  · simp [h]
  · have h2 : ¬ j = k := fun e => h e.symm
    have := get?_delete m k j
    simp only [h2, if_false] at this
    simp only [h, h2, if_false]
    exact this

theorem get?_set_self (m : GoMap κ ν) (k : κ) (v : ν) : (m.set k v).get? k = some v := by
  simp [get?_set]

theorem get?_set_ne (m : GoMap κ ν) {k j : κ} (v : ν) (h : j ≠ k) :
    (m.set k v).get? j = m.get? j := by
  simp [get?_set, h]

theorem get?_isSome_iff (m : GoMap κ ν) (k : κ) : (m.get? k).isSome ↔ k ∈ m.keys := by
  obtain ⟨l⟩ := m
  induction l with
  | nil => simp [get?, keys]
  | cons e t ih =>
    obtain ⟨a, b⟩ := e
    rw [get?_cons]
    by_cases h : a = k
    · simp [keys, h]
    · have h2 : ¬ k = a := fun e => h e.symm
      simpa [keys, h, h2] using ih

theorem get?_eq_none_iff (m : GoMap κ ν) (k : κ) : m.get? k = none ↔ k ∉ m.keys := by
  rw [← get?_isSome_iff]
  cases m.get? k <;> simp

theorem keys_delete (m : GoMap κ ν) (k : κ) :
    (m.delete k).keys = m.keys.filter (fun a => decide (a ≠ k)) := by
  obtain ⟨l⟩ := m
  induction l with
  | nil => rfl
  | cons e t ih =>
    obtain ⟨a, b⟩ := e
    rw [delete_cons]
    by_cases h : a = k
    · rw [if_pos h, ih]; simp [keys, List.filter_cons, h]
    · rw [if_neg h]
      simp only [keys, List.map_cons] at ih ⊢
      rw [ih]; simp [List.filter_cons, h]

theorem mem_keys_delete (m : GoMap κ ν) (k j : κ) :
    j ∈ (m.delete k).keys ↔ j ∈ m.keys ∧ j ≠ k := by
  simp [keys_delete]

theorem keys_set (m : GoMap κ ν) (k : κ) (v : ν) :
    (m.set k v).keys = k :: (m.delete k).keys := rfl

theorem mem_keys_set (m : GoMap κ ν) (k j : κ) (v : ν) :
    j ∈ (m.set k v).keys ↔ j = k ∨ j ∈ m.keys := by
  rw [keys_set, List.mem_cons, mem_keys_delete]
  by_cases hj : j = k <;> simp [hj]

theorem nodup_keys_delete (m : GoMap κ ν) (k : κ) (h : m.keys.Nodup) :
    (m.delete k).keys.Nodup := by
  rw [keys_delete]; exact h.filter _

theorem nodup_keys_set (m : GoMap κ ν) (k : κ) (v : ν) (h : m.keys.Nodup) :
    (m.set k v).keys.Nodup := by
  rw [keys_set, List.nodup_cons]
  exact ⟨by simp [mem_keys_delete], nodup_keys_delete m k h⟩

end GoMap

/-! ## The aggregator of fileCutter -/

theorem recvChecksums_ok (results : List Block) :
    ∀ (n : Nat) (blocks : GoMap Nat Bytes), n = results.length →
      recvChecksums n results blocks
        = .ok (results.foldl (fun m t => m.set t.Index t.Hash) blocks) := by
  induction results with
  | nil => intro n blocks h; subst h; rfl
  | cons t cs ih =>
    intro n blocks h
    subst h
    simpa [recvChecksums] using ih cs.length (blocks.set t.Index t.Hash) rfl

theorem foldl_set_get?_of_not_mem (results : List Block) :
    ∀ (blocks : GoMap Nat Bytes) (i : Nat), i ∉ results.map Block.Index →
      GoMap.get? (results.foldl (fun m t => m.set t.Index t.Hash) blocks) i = blocks.get? i := by
  induction results with
  | nil => intro blocks i _; rfl
  | cons t cs ih =>
    intro blocks i h
    simp only [List.map_cons, List.mem_cons, not_or] at h
    simp only [List.foldl_cons]
    rw [ih _ i h.2, GoMap.get?_set_ne _ _ h.1]

theorem foldl_set_get?_of_mem (results : List Block) :
    ∀ (blocks : GoMap Nat Bytes) (t : Block), (results.map Block.Index).Nodup → t ∈ results →
      GoMap.get? (results.foldl (fun m t => m.set t.Index t.Hash) blocks) t.Index = some t.Hash := by
  induction results with
  | nil => intro blocks t _ h; cases h
  | cons u cs ih =>
    intro blocks t hnd ht
    simp only [List.map_cons, List.nodup_cons] at hnd
    simp only [List.foldl_cons]
    rcases List.mem_cons.mp ht with rfl | ht
    · rw [foldl_set_get?_of_not_mem cs _ _ hnd.1, GoMap.get?_set_self]
    · exact ih _ t hnd.2 ht

theorem foldl_Write_written (f : Nat → Bytes) (l : List Nat) :
    ∀ h : Hasher, (l.foldl (fun h i => h.Write (f i)) h).written
      = h.written ++ (l.map f).flatten := by
  induction l with
  | nil => intro h; simp
  | cons i l ih =>
    intro h
    rw [List.foldl_cons, ih]
    simp [Hasher.Write]

theorem map_range_get (l : List Block) (f : Nat → Bytes) (g : Block → Bytes)
    (h : ∀ (i : Nat) (hi : i < l.length), f i = g (l.get ⟨i, hi⟩)) :
    (List.range l.length).map f = l.map g := by
  apply List.ext_getElem
  · simp
  · intro i h1 h2
    simp at h1
    simpa using h i h1

/-- The aggregation of lines 90-103 on results that are a rearrangement of the
hashed blocks of a dispatch with indices `0..N-1`. -/
theorem aggregate_perm (sha1 : Bytes → Bytes) (sent results : List Block)
    (hidx : sent.map Block.Index = List.range sent.length)
    (hperm : results.Perm (sent.map (blockHasher sha1))) :
    aggregate sha1 sent.length results
      = .ok (sprintfHex (sha1 ((sent.map (fun b => sha1 b.Body)).flatten))) := by
  have hlen : results.length = sent.length := by simpa using hperm.length_eq
  have hidx2 : (sent.map (blockHasher sha1)).map Block.Index = List.range sent.length := by
    rw [← hidx]; simp [blockHasher, Function.comp_def]
  have hnd : (results.map Block.Index).Nodup := by
    have := (hperm.map Block.Index).nodup_iff.mpr (by rw [hidx2]; exact List.nodup_range _)
    exact this
  have hget : ∀ (i : Nat) (hi : i < sent.length),
      GoMap.getD (results.foldl (fun m t => m.set t.Index t.Hash) (GoMap.empty : GoMap Nat Bytes)) i []
        = sha1 (sent.get ⟨i, hi⟩).Body := by
    intro i hi
    have hmem : blockHasher sha1 (sent.get ⟨i, hi⟩) ∈ results :=
      hperm.mem_iff.mpr (List.mem_map_of_mem _ (List.get_mem _ _ _))
    have hi2 : (sent.get ⟨i, hi⟩).Index = i := by
      have := congrArg (fun l => l[i]?) hidx
      simp [List.getElem?_range hi, hi] at this
      simpa using this
    have := foldl_set_get?_of_mem results GoMap.empty _ hnd hmem
    simp only [blockHasher, hi2] at this
    simp [GoMap.getD, this, Hasher.Sum, Hasher.Write, sha1New]
  simp only [aggregate, waitCompleted, hlen, lt_irrefl, if_false, bind, Except.bind, pure,
    Except.pure, recvChecksums_ok results sent.length GoMap.empty hlen.symm, feedBlocks, Hasher.Sum,
    foldl_Write_written, sha1New, List.nil_append]
  rw [map_range_get sent _ (fun b => sha1 b.Body) hget]

/-! ## The read loop of fileCutter -/

theorem readLoop_succ (B : Nat) (reads : Nat → ReadResult) (fuel parts : Nat) (rest : Bytes) :
    readLoop B reads (fuel + 1) parts rest
      = if min (reads parts).n (min B rest.length) = 0 ∨ (reads parts).err = some ReadErr.EOF then
          .ok ([], parts)
        else
          match readLoop B reads fuel (parts + 1)
              (rest.drop (min (reads parts).n (min B rest.length))) with
          | .ok (sent, total) =>
            .ok (⟨parts, rest.take (min (reads parts).n (min B rest.length)), []⟩ :: sent, total)
          | .error e => .error e := rfl

/-- What the read loop sends, whatever the reads return: the loop ends, the
indices count up from `parts`, no body is empty or longer than the buffer, and
the bodies in order are a prefix of what the file held. -/
theorem readLoop_spec (B : Nat) (reads : Nat → ReadResult) :
    ∀ (fuel parts : Nat) (rest : Bytes), rest.length < fuel →
      ∃ sent : List Block,
        readLoop B reads fuel parts rest = .ok (sent, parts + sent.length)
        ∧ sent.map Block.Index = List.range' parts sent.length
        ∧ (∀ b ∈ sent, b.Body ≠ [] ∧ b.Body.length ≤ B ∧ b.Hash = [])
        ∧ (sent.map Block.Body).flatten <+: rest := by
  intro fuel
  induction fuel with
  | zero => intro parts rest h; omega
  | succ fuel ih =>
    intro parts rest hfuel
    rw [readLoop_succ]
    by_cases hbrk : min (reads parts).n (min B rest.length) = 0 ∨ (reads parts).err = some ReadErr.EOF
    · rw [if_pos hbrk]
      exact ⟨[], by simp, by simp, by simp, by simp⟩
    · rw [if_neg hbrk]
      have hn : min (reads parts).n (min B rest.length) ≠ 0 := fun h => hbrk (Or.inl h)
      generalize hN : min (reads parts).n (min B rest.length) = n at hn ⊢
      have hnB : n ≤ B := by omega
      have hnr : n ≤ rest.length := by omega
      have hlen : (rest.drop n).length < fuel := by rw [List.length_drop]; omega
      obtain ⟨sent, h1, h2, h3, h4⟩ := ih (parts + 1) (rest.drop n) hlen
      refine ⟨⟨parts, rest.take n, []⟩ :: sent, ?_, ?_, ?_, ?_⟩
      · rw [h1]; simp; omega
      · simp [List.range'_succ, h2]
      · intro b hb
        rcases List.mem_cons.mp hb with rfl | hb
        · refine ⟨?_, ?_, rfl⟩
          · intro h
            have hl : (rest.take n).length = 0 := congrArg List.length h
            rw [List.length_take] at hl
            omega
          · show (rest.take n).length ≤ B
            rw [List.length_take]
            omega
        · exact h3 b hb
      · obtain ⟨t, ht⟩ := h4
        refine ⟨t, ?_⟩
        simp only [List.map_cons, List.flatten_cons, List.append_assoc]
        rw [ht, List.take_append_drop]

theorem dispatch_spec (B : Nat) (reads : Nat → ReadResult) (data : Bytes) :
    ∃ sent : List Block,
      dispatch B reads data = .ok (sent, sent.length)
      ∧ sent.map Block.Index = List.range sent.length
      ∧ (∀ b ∈ sent, b.Body ≠ [] ∧ b.Body.length ≤ B ∧ b.Hash = [])
      ∧ (sent.map Block.Body).flatten <+: data := by
  obtain ⟨sent, h1, h2, h3, h4⟩ := readLoop_spec B reads (data.length + 1) 0 data (by omega)
  refine ⟨sent, ?_, ?_, h3, h4⟩
  · simpa [dispatch] using h1
  · rw [h2, List.range_eq_range']

/-- The result of fileCutter in terms of what its read loop sent, for a pool
that delivers the results in any order. -/
theorem fileCutter_eq (sha1 : Bytes → Bytes) (B : Nat) (env : FileEnv)
    (hopen : env.openOk = true) (harrive : ∀ l, (env.arrive l).Perm l) :
    ∃ sent : List Block,
      dispatch B env.reads env.data = .ok (sent, sent.length)
      ∧ sent.map Block.Index = List.range sent.length
      ∧ fileCutter sha1 B env
          = .ok (sprintfHex (sha1 ((sent.map (fun b => sha1 b.Body)).flatten))) := by
  obtain ⟨sent, h1, h2, _, _⟩ := dispatch_spec B env.reads env.data
  refine ⟨sent, h1, h2, ?_⟩
  have := aggregate_perm sha1 sent (env.arrive (sent.map (blockHasher sha1))) h2 (harrive _)
  simp only [fileCutter, hopen, h1, bind, Except.bind]
  simpa using this

theorem dispatch_nil (B : Nat) (reads : Nat → ReadResult) :
    dispatch B reads [] = .ok ([], 0) := by
  simp [dispatch, readLoop]

/-- Claim C1. The aggregation of fileCutter (lines 90-103), given the `N` blocks
that were dispatched with indices `0..N-1` and the results of the workers in
any order of arrival, returns the lowercase hexadecimal SHA-1 of the block
digests concatenated in index order; with no block it returns the hexadecimal
SHA-1 of the empty input; and fileCutter as a whole returns that value for the
blocks its read loop sent, whatever order the pool delivers in. -/
theorem fileCutter_digest_in_index_order :
    (∀ (sha1 : Bytes → Bytes) (sent results : List Block),
        sent.map Block.Index = List.range sent.length →
        results.Perm (sent.map (blockHasher sha1)) →
        aggregate sha1 sent.length results
          = .ok (sprintfHex (sha1 ((sent.map (fun b => sha1 b.Body)).flatten))))
    ∧ (∀ sha1 : Bytes → Bytes, aggregate sha1 0 [] = .ok (sprintfHex (sha1 [])))
    ∧ (∀ (sha1 : Bytes → Bytes) (B : Nat) (env : FileEnv),
        env.openOk = true → (∀ l, (env.arrive l).Perm l) →
        ∃ sent : List Block,
          dispatch B env.reads env.data = .ok (sent, sent.length)
          ∧ sent.map Block.Index = List.range sent.length
          ∧ fileCutter sha1 B env
              = .ok (sprintfHex (sha1 ((sent.map (fun b => sha1 b.Body)).flatten)))
          ∧ (env.data = [] → fileCutter sha1 B env = .ok (sprintfHex (sha1 [])))) := by
  refine ⟨aggregate_perm, ?_, ?_⟩
  · intro sha1
    simpa using aggregate_perm sha1 [] [] rfl (List.Perm.refl _)
  · intro sha1 B env hopen harrive
    obtain ⟨sent, h1, h2, h3⟩ := fileCutter_eq sha1 B env hopen harrive
    refine ⟨sent, h1, h2, h3, ?_⟩
    intro hdata
    rw [hdata, dispatch_nil] at h1
    simp only [Except.ok.injEq, Prod.mk.injEq] at h1
    rw [h3, ← h1.1]
    simp

/-- Claim C1, at a file of five bytes cut into blocks of two whose results
arrive in reverse order, with the first two bytes of the input standing for its
digest. -/
theorem fileCutter_digest_in_index_order_witness :
    aggregate (fun b => b.take 2) 3
        [⟨2, [], [5]⟩, ⟨1, [], [3, 4]⟩, ⟨0, [], [1, 2]⟩]
      = .ok ['0', '1', '0', '2']
    ∧ fileCutter (fun b => b.take 2) 2 ⟨true, [1, 2, 3, 4, 5], fullRead 2, List.reverse⟩
      = .ok ['0', '1', '0', '2']
    ∧ ∃ sent : List Block,
        dispatch 2 (fullRead 2) [1, 2, 3, 4, 5] = .ok (sent, sent.length)
        ∧ fileCutter (fun b => b.take 2) 2 ⟨true, [1, 2, 3, 4, 5], fullRead 2, List.reverse⟩
            = .ok (sprintfHex ((sent.map (fun b => b.Body.take 2)).flatten.take 2)) := by
  refine ⟨?_, ?_, ?_⟩
  · have h := fileCutter_digest_in_index_order.1 (fun b => b.take 2)
      [⟨0, [1, 2], []⟩, ⟨1, [3, 4], []⟩, ⟨2, [5], []⟩]
      [⟨2, [], [5]⟩, ⟨1, [], [3, 4]⟩, ⟨0, [], [1, 2]⟩] (by decide)
      (by
        have : ([⟨2, [], [5]⟩, ⟨1, [], [3, 4]⟩, ⟨0, [], [1, 2]⟩] : List Block)
            = List.reverse (List.map (blockHasher (fun b => b.take 2))
                [⟨0, [1, 2], []⟩, ⟨1, [3, 4], []⟩, ⟨2, [5], []⟩]) := by decide
        rw [this]
        exact List.reverse_perm _)
    exact h.trans (by decide)
  · decide
  · obtain ⟨sent, h1, _, h3, _⟩ := fileCutter_digest_in_index_order.2.2 (fun b => b.take 2) 2
      ⟨true, [1, 2, 3, 4, 5], fullRead 2, List.reverse⟩ rfl (fun l => List.reverse_perm l)
    exact ⟨sent, h1, h3⟩

/-- Claim C9, the code at the failing input: the file opens, and its first read
fails with an error that is not `io.EOF` (as a read of a directory does).
fileCutter does not stop the run; it returns the digest of the empty input. -/
theorem fileCutter_read_error_returns (sha1 : Bytes → Bytes) (data : Bytes) :
    fileCutter sha1 BUFFER ⟨true, data, fun _ => ⟨0, some ReadErr.other⟩, id⟩
      = .ok (sprintfHex (sha1 [])) := by
  simp [fileCutter, dispatch, readLoop, aggregate, waitCompleted, recvChecksums, feedBlocks,
    sha1New, Hasher.Sum, bind, Except.bind, pure, Except.pure]

theorem fileCutter_open_error (sha1 : Bytes → Bytes) (B : Nat) (env : FileEnv)
    (h : env.openOk = false) : fileCutter sha1 B env = .error Stop.fatal := by
  simp [fileCutter, h, bind, Except.bind, throw, throwThe, MonadExceptOf.throw]

/-! ## Writing the manifest -/

theorem foldl_append_singleton {α : Type} (l : List α) :
    ∀ init : List α, l.foldl (fun names k => names ++ [k]) init = init ++ l := by
  induction l with
  | nil => intro init; simp
  | cons a l ih => intro init; simp [ih]

theorem WriteString_at_end (d s : GoString) :
    (⟨d, d.length⟩ : File).WriteString s = ⟨d ++ s, (d ++ s).length⟩ := by
  simp [File.WriteString]

theorem foldl_WriteString (f : GoString → GoString) (names : List GoString) :
    ∀ d : GoString,
      names.foldl (fun file v => file.WriteString (f v)) (⟨d, d.length⟩ : File)
        = ⟨d ++ (names.map f).flatten, (d ++ (names.map f).flatten).length⟩ := by
  induction names with
  | nil => intro d; simp
  | cons v names ih =>
    intro d
    rw [List.foldl_cons, WriteString_at_end, ih]
    simp

/-- The file RewriteShaFile leaves: the records of the keys in sorted order and
nothing else, whatever the file held before. -/
theorem RewriteShaFile_eq (shaFile : File) (shaMap : GoMap GoString GoString) :
    RewriteShaFile shaFile shaMap
      = ⟨((sortStrings shaMap.keys).map (fun v => record (shaMap.getD v []) v)).flatten,
         ((sortStrings shaMap.keys).map (fun v => record (shaMap.getD v []) v)).flatten.length⟩ := by
  have h0 : ((shaFile.Truncate 0).Seek 0) = (⟨[], ([] : GoString).length⟩ : File) := by
    simp [File.Truncate, File.Seek]
  simp only [RewriteShaFile, h0, foldl_append_singleton, List.nil_append]
  rw [foldl_WriteString]
  simp

theorem sortStrings_perm (names : List GoString) : (sortStrings names).Perm names :=
  List.perm_insertionSort _ names

theorem sortStrings_sorted (names : List GoString) :
    (sortStrings names).Sorted (fun a b => a ≤ b) :=
  List.sorted_insertionSort _ names

theorem sortStrings_sorted_lt (names : List GoString) (h : names.Nodup) :
    (sortStrings names).Sorted (fun a b => a < b) :=
  (sortStrings_sorted names).lt_of_le ((sortStrings_perm names).nodup_iff.mpr h)

theorem sortStrings_congr (l₁ l₂ : List GoString) (h : l₁.Perm l₂) :
    sortStrings l₁ = sortStrings l₂ :=
  List.eq_of_perm_of_sorted ((sortStrings_perm l₁).trans (h.trans (sortStrings_perm l₂).symm))
    (sortStrings_sorted l₁) (sortStrings_sorted l₂)

namespace GoMap

variable {κ ν : Type} [DecidableEq κ]

theorem get?_of_mem (m : GoMap κ ν) (h : m.keys.Nodup) (e : κ × ν) (he : e ∈ m.entries) :
    m.get? e.1 = some e.2 := by
  obtain ⟨l⟩ := m
  induction l with
  | nil => cases he
  | cons x t ih =>
    obtain ⟨a, b⟩ := x
    rw [get?_cons]
    simp only [keys, List.map_cons, List.nodup_cons] at h
    rcases List.mem_cons.mp he with rfl | he
    · simp
    · have hne : ¬ a = e.1 := fun h1 => h.1 (h1 ▸ List.mem_map_of_mem Prod.fst he)
      rw [if_neg hne]
      exact ih h.2 he

theorem mem_of_get? (m : GoMap κ ν) (k : κ) (v : ν) (h : m.get? k = some v) :
    (k, v) ∈ m.entries := by
  obtain ⟨l⟩ := m
  induction l with
  | nil => simp [get?] at h
  | cons x t ih =>
    obtain ⟨a, b⟩ := x
    rw [get?_cons] at h
    by_cases hk : a = k
    · rw [if_pos hk] at h
      simp only [Option.some.injEq] at h
      subst hk; subst h
      exact List.mem_cons_self _ _
    · rw [if_neg hk] at h
      exact List.mem_cons_of_mem _ (ih h)

end GoMap

/-- Claim C4. Whatever the manifest file held, the text RewriteShaFile leaves in
it is one record per entry of the map (digest, three spaces, file name, CR LF),
the records standing in strictly ascending order of file name, and nothing
else. -/
theorem RewriteShaFile_records (shaFile : File) (shaMap : GoMap GoString GoString)
    (hnd : shaMap.keys.Nodup) :
    ∃ es : List (GoString × GoString),
      es.Perm shaMap.entries
      ∧ (es.map Prod.fst).Sorted (fun a b => a < b)
      ∧ (RewriteShaFile shaFile shaMap).data
          = (es.map (fun e => e.2 ++ [' ', ' ', ' '] ++ e.1 ++ ['\r', '\n'])).flatten := by
  refine ⟨(sortStrings shaMap.keys).map (fun k => (k, shaMap.getD k [])), ?_, ?_, ?_⟩
  · have h1 : ((sortStrings shaMap.keys).map (fun k => (k, shaMap.getD k []))).Perm
        (shaMap.keys.map (fun k => (k, shaMap.getD k []))) :=
      (sortStrings_perm _).map _
    have h2 : shaMap.keys.map (fun k => (k, shaMap.getD k [])) = shaMap.entries := by
      simp only [GoMap.keys, List.map_map]
      conv_rhs => rw [← List.map_id shaMap.entries]
      apply List.map_congr_left
      intro e he
      simp [GoMap.getD, GoMap.get?_of_mem shaMap hnd e he]
    rw [h2] at h1
    exact h1
  · simpa [List.map_map, Function.comp_def] using sortStrings_sorted_lt _ hnd
  · rw [RewriteShaFile_eq]
    simp [List.map_map, Function.comp_def, record, sep3, CRLF]

/-- Claim C4 on a map of two entries and a file that held other text. -/
theorem RewriteShaFile_records_witness :
    (⟨[(['b'], ['2']), (['a'], ['1'])]⟩ : GoMap GoString GoString).keys.Nodup
    ∧ (RewriteShaFile ⟨['x', 'y', 'z'], 3⟩ ⟨[(['b'], ['2']), (['a'], ['1'])]⟩).data
        = ['1', ' ', ' ', ' ', 'a', '\r', '\n', '2', ' ', ' ', ' ', 'b', '\r', '\n']
    ∧ ∃ es : List (GoString × GoString),
        es.Perm [(['b'], ['2']), (['a'], ['1'])]
        ∧ (es.map Prod.fst).Sorted (fun a b => a < b)
        ∧ (RewriteShaFile ⟨['x', 'y', 'z'], 3⟩ ⟨[(['b'], ['2']), (['a'], ['1'])]⟩).data
            = (es.map (fun e => e.2 ++ [' ', ' ', ' '] ++ e.1 ++ ['\r', '\n'])).flatten :=
  ⟨by decide, by decide,
    RewriteShaFile_records ⟨['x', 'y', 'z'], 3⟩ ⟨[(['b'], ['2']), (['a'], ['1'])]⟩ (by decide)⟩

/-! ## The file sets of main -/

theorem removeSha1_eq_erase (files : List GoString) : removeSha1 files = files.erase dotSha1 := by
  induction files with
  | nil => rfl
  | cons v rest ih =>
    by_cases h : v = dotSha1
    · simp [removeSha1, h]
    · simp [removeSha1, h, List.erase_cons_tail, ih]

theorem removeSha1_subset (files : List GoString) : removeSha1 files ⊆ files := by
  rw [removeSha1_eq_erase]; exact List.erase_subset _ _

theorem mem_removeSha1 (files : List GoString) (h : files.Nodup) (v : GoString) :
    v ∈ removeSha1 files ↔ v ∈ files ∧ v ≠ dotSha1 := by
  rw [removeSha1_eq_erase, h.mem_erase_iff]; tauto

theorem nodup_removeSha1 (files : List GoString) (h : files.Nodup) : (removeSha1 files).Nodup := by
  rw [removeSha1_eq_erase]; exact h.erase _

theorem foldl_unless {α : Type} (p : α → Bool) (l : List α) :
    ∀ init : List α,
      l.foldl (fun acc v => if p v then acc else acc ++ [v]) init
        = init ++ l.filter (fun v => !p v) := by
  induction l with
  | nil => intro init; simp
  | cons a l ih =>
    intro init
    rw [List.foldl_cons, ih]
    cases h : p a <;> simp [List.filter_cons, h]

theorem computeNews_eq (files : List GoString) (shaMap : GoMap GoString GoString) :
    computeNews files shaMap = files.filter (fun v => !(shaMap.get? v).isSome) := by
  simp only [computeNews]
  rw [foldl_unless (fun v => (shaMap.get? v).isSome)]
  simp

theorem findFrom_snd (slice : List GoString) (val : GoString) :
    ∀ i : Nat, (findFrom i slice val).2 = decide (val ∈ slice) := by
  induction slice with
  | nil => intro i; simp [findFrom]
  | cons item rest ih =>
    intro i
    by_cases h : item = val
    · simp [findFrom, h]
    · have h2 : ¬ val = item := fun e => h e.symm
      simp [findFrom, h, h2, ih]

theorem Find_snd (slice : List GoString) (val : GoString) :
    (Find slice val).2 = decide (val ∈ slice) := findFrom_snd slice val 0

theorem computeOrphans_eq (files : List GoString) (shaMap : GoMap GoString GoString) :
    computeOrphans files shaMap = shaMap.keys.filter (fun k => !decide (k ∈ files)) := by
  simp only [computeOrphans]
  rw [foldl_unless (fun k => (Find files k).2)]
  simp [Find_snd]

theorem mem_computeNews (files : List GoString) (shaMap : GoMap GoString GoString)
    (v : GoString) : v ∈ computeNews files shaMap ↔ v ∈ files ∧ v ∉ shaMap.keys := by
  rw [computeNews_eq, List.mem_filter, ← GoMap.get?_isSome_iff]
  simp

theorem mem_computeOrphans (files : List GoString) (shaMap : GoMap GoString GoString)
    (k : GoString) : k ∈ computeOrphans files shaMap ↔ k ∈ shaMap.keys ∧ k ∉ files := by
  rw [computeOrphans_eq, List.mem_filter]
  simp

theorem ClearOrphans_entries (orphans : List GoString) :
    ∀ shaMap : GoMap GoString GoString,
      (ClearOrphans orphans shaMap).entries
        = shaMap.entries.filter (fun e => decide (e.1 ∉ orphans)) := by
  induction orphans with
  | nil => intro shaMap; simp [ClearOrphans]
  | cons v vs ih =>
    intro shaMap
    have := ih (shaMap.delete v)
    simp only [ClearOrphans, List.foldl_cons] at this ⊢
    rw [this]
    simp only [GoMap.delete, List.filter_filter]
    apply List.filter_congr
    intro e _
    by_cases h1 : e.1 = v <;> simp [h1]

theorem ClearOrphans_get? (orphans : List GoString) :
    ∀ (shaMap : GoMap GoString GoString) (k : GoString),
      (ClearOrphans orphans shaMap).get? k = if k ∈ orphans then none else shaMap.get? k := by
  induction orphans with
  | nil => intro shaMap k; simp [ClearOrphans]
  | cons v vs ih =>
    intro shaMap k
    have := ih (shaMap.delete v) k
    simp only [ClearOrphans, List.foldl_cons] at this ⊢
    rw [this, GoMap.get?_delete]
    by_cases h1 : k = v
    · simp [h1]
    · by_cases h2 : k ∈ vs <;> simp [h1, h2]

theorem ClearOrphans_keys (orphans : List GoString) (shaMap : GoMap GoString GoString) :
    (ClearOrphans orphans shaMap).keys = shaMap.keys.filter (fun k => decide (k ∉ orphans)) := by
  simp only [GoMap.keys, ClearOrphans_entries, List.filter_map]
  rfl

theorem ClearOrphans_nodup (orphans : List GoString) (shaMap : GoMap GoString GoString)
    (h : shaMap.keys.Nodup) : (ClearOrphans orphans shaMap).keys.Nodup := by
  rw [ClearOrphans_keys]; exact h.filter _

theorem ClearOrphans_computed_keys (files : List GoString) (shaMap : GoMap GoString GoString) :
    (ClearOrphans (computeOrphans files shaMap) shaMap).keys
      = shaMap.keys.filter (fun k => decide (k ∈ files)) := by
  rw [ClearOrphans_keys]
  apply List.filter_congr
  intro k hk
  simp [mem_computeOrphans, hk]

/-- Claim C5. For a directory listing without repeated names and any loaded
mapping: news is exactly the listed names other than `.sha1` that are not keys
of the mapping, each once; orphans is exactly the keys that are not among the
listed names with `.sha1` removed; the two are disjoint; news lies within the
listing and orphans within the keys; and `.sha1` is neither in news nor among
the files that the recompute modes hash. -/
theorem news_and_orphans (files : List GoString) (shaMap : GoMap GoString GoString)
    (hnd : files.Nodup) :
    (∀ v, v ∈ computeNews (removeSha1 files) shaMap
        ↔ v ∈ files ∧ v ≠ dotSha1 ∧ v ∉ shaMap.keys)
    ∧ (∀ k, k ∈ computeOrphans (removeSha1 files) shaMap
        ↔ k ∈ shaMap.keys ∧ k ∉ removeSha1 files)
    ∧ (∀ v, v ∈ removeSha1 files ↔ v ∈ files ∧ v ≠ dotSha1)
    ∧ (computeNews (removeSha1 files) shaMap).Nodup
    ∧ List.Disjoint (computeNews (removeSha1 files) shaMap)
        (computeOrphans (removeSha1 files) shaMap)
    ∧ computeNews (removeSha1 files) shaMap ⊆ files
    ∧ computeOrphans (removeSha1 files) shaMap ⊆ shaMap.keys
    ∧ dotSha1 ∉ computeNews (removeSha1 files) shaMap
    ∧ dotSha1 ∉ removeSha1 files := by
  have hmem := mem_removeSha1 files hnd
  refine ⟨?_, ?_, hmem, ?_, ?_, ?_, ?_, ?_, ?_⟩
  · intro v
    rw [mem_computeNews, hmem]; tauto
  · intro k
    exact mem_computeOrphans _ _ k
  · rw [computeNews_eq]; exact (nodup_removeSha1 files hnd).filter _
  · intro v h1 h2
    exact ((mem_computeOrphans _ _ v).mp h2).2 ((mem_computeNews _ _ v).mp h1).1
  · intro v hv
    exact removeSha1_subset files ((mem_computeNews _ _ v).mp hv).1
  · intro k hk
    exact ((mem_computeOrphans _ _ k).mp hk).1
  · intro h
    exact ((hmem _).mp ((mem_computeNews _ _ _).mp h).1).2 rfl
  · intro h
    exact ((hmem _).mp h).2 rfl

/-- Claim C5 on the manifest with entries A, B, C and the listing B, C, D (and
the manifest file itself): news is D and orphans is A. -/
theorem news_and_orphans_witness :
    computeNews (removeSha1 [['B'], dotSha1, ['C'], ['D']])
        ⟨[(['A'], ['1']), (['B'], ['2']), (['C'], ['3'])]⟩ = [['D']]
    ∧ computeOrphans (removeSha1 [['B'], dotSha1, ['C'], ['D']])
        ⟨[(['A'], ['1']), (['B'], ['2']), (['C'], ['3'])]⟩ = [['A']]
    ∧ dotSha1 ∉ removeSha1 [['B'], dotSha1, ['C'], ['D']] :=
  ⟨by decide, by decide,
    (news_and_orphans [['B'], dotSha1, ['C'], ['D']]
      ⟨[(['A'], ['1']), (['B'], ['2']), (['C'], ['3'])]⟩ (by decide)).2.2.2.2.2.2.2.2⟩

/-- Claim C6. After ClearOrphans the mapping holds exactly the entries of the
original mapping whose names are not in orphans, each with its digest; and
when orphans is the list main computes, the keys that remain are exactly the
keys of the manifest that are among the files of the directory (the listing
with the manifest file itself removed). Clearing A from A, B, C leaves B, C. -/
theorem ClearOrphans_frame (orphans files : List GoString)
    (shaMap : GoMap GoString GoString) :
    (ClearOrphans orphans shaMap).entries
        = shaMap.entries.filter (fun e => decide (e.1 ∉ orphans))
    ∧ (∀ k, (ClearOrphans orphans shaMap).get? k
        = if k ∈ orphans then none else shaMap.get? k)
    ∧ (ClearOrphans (computeOrphans (removeSha1 files) shaMap) shaMap).keys
        = shaMap.keys.filter (fun k => decide (k ∈ removeSha1 files))
    ∧ (∀ k, (ClearOrphans (computeOrphans (removeSha1 files) shaMap) shaMap).get? k
        = if k ∈ removeSha1 files then shaMap.get? k else none)
    ∧ ClearOrphans [['A']] ⟨[(['A'], ['1']), (['B'], ['2']), (['C'], ['3'])]⟩
        = ⟨[(['B'], ['2']), (['C'], ['3'])]⟩ := by
  refine ⟨ClearOrphans_entries orphans shaMap, ClearOrphans_get? orphans shaMap,
    ClearOrphans_computed_keys _ shaMap, ?_, by decide⟩
  intro k
  rw [ClearOrphans_get?]
  by_cases hf : k ∈ removeSha1 files
  · simp [mem_computeOrphans, hf]
  · by_cases hk : k ∈ shaMap.keys
    · simp [mem_computeOrphans, hf, hk]
    · simp [mem_computeOrphans, hf, hk, (GoMap.get?_eq_none_iff shaMap k).mpr hk]

/-! ## Splitting, trimming and reading lines -/

theorem splitGo_nil (sep : GoString) (k : Nat) : splitGo sep k [] = [[]] := by
  cases k <;> rfl

theorem splitGo_skip (sep : GoString) (k : Nat) (c : Char) (cs : GoString) :
    splitGo sep (k + 1) (c :: cs) = splitGo sep k cs := rfl

theorem splitGo_zero (sep : GoString) (c : Char) (cs : GoString) :
    splitGo sep 0 (c :: cs)
      = if sep.isPrefixOf (c :: cs) then [] :: splitGo sep (sep.length - 1) cs
        else match splitGo sep 0 cs with
          | f :: fs => (c :: f) :: fs
          | [] => [[c]] := rfl

theorem splitGo_ne_nil (sep : GoString) : ∀ (s : GoString) (k : Nat), splitGo sep k s ≠ [] := by
  intro s
  induction s with
  | nil => intro k; rw [splitGo_nil]; simp
  | cons c cs ih =>
    intro k
    cases k with
    | succ k => rw [splitGo_skip]; exact ih k
    | zero =>
      rw [splitGo_zero]
      split
      · simp
      · split <;> simp

theorem splitGo_skip_append (sep : GoString) (p s : GoString) :
    splitGo sep p.length (p ++ s) = splitGo sep 0 s := by
  induction p with
  | nil => rfl
  | cons c p ih => simpa [splitGo_skip] using ih

theorem splitGo_no_sep (sep : GoString) :
    ∀ s : GoString, ¬ sep <:+: s → splitGo sep 0 s = [s] := by
  intro s
  induction s with
  | nil => intro _; rfl
  | cons c cs ih =>
    intro h
    have h1 : sep.isPrefixOf (c :: cs) = false := by
      rw [Bool.eq_false_iff]
      intro hp
      exact h (List.isPrefixOf_iff_prefix.mp hp).isInfix
    have h2 : ¬ sep <:+: cs := fun hi => h (hi.trans (List.suffix_cons c cs).isInfix)
    rw [splitGo_zero, h1, ih h2]
    simp

theorem sep3_not_at_start (c : Char) (d n : GoString) (hinf : ¬ sep3 <:+: (c :: d))
    (hlast : (c :: d).getLast? ≠ some ' ') :
    sep3.isPrefixOf (c :: d ++ sep3 ++ n) = false := by
  rw [Bool.eq_false_iff]
  intro hp
  have hp := List.isPrefixOf_iff_prefix.mp hp
  obtain ⟨t, ht⟩ := hp
  match d, hinf, hlast, ht with
  | [], _, hlast, ht =>
    simp [sep3] at ht
    exact hlast (by simp [ht.1.symm])
  | [c2], _, hlast, ht =>
    simp [sep3] at ht
    exact hlast (by simp [ht.2.1.symm])
  | c2 :: c3 :: d3, hinf, _, ht =>
    simp [sep3] at ht
    apply hinf
    refine ⟨[], d3, ?_⟩
    simp [sep3, ht.1.symm, ht.2.1.symm, ht.2.2.1.symm]

/-- A record body splits into its digest and its name. -/
theorem Split_record :
    ∀ (d n : GoString), ¬ sep3 <:+: d → d.getLast? ≠ some ' ' → ¬ sep3 <:+: n →
      Split (d ++ sep3 ++ n) sep3 = [d, n] := by
  intro d
  induction d with
  | nil =>
    intro n _ _ hn
    have h := splitGo_skip_append sep3 [' ', ' '] n
    have h0 : splitGo sep3 0 n = [n] := splitGo_no_sep sep3 n hn
    show splitGo sep3 0 (' ' :: ' ' :: ' ' :: n) = [[], n]
    rw [splitGo_zero]
    have hp : sep3.isPrefixOf (' ' :: ' ' :: ' ' :: n) = true := by simp [sep3]
    rw [if_pos hp]
    have hl : sep3.length - 1 = ([' ', ' '] : GoString).length := rfl
    rw [hl]
    have : (' ' :: ' ' :: n) = [' ', ' '] ++ n := rfl
    rw [this, h, h0]
  | cons c d ih =>
    intro n hinf hlast hn
    have hp := sep3_not_at_start c d n hinf hlast
    have hinf2 : ¬ sep3 <:+: d := fun hi => hinf (hi.trans (List.suffix_cons c d).isInfix)
    have hlast2 : d.getLast? ≠ some ' ' := by
      cases d with
      | nil => simp
      | cons c2 d2 => simpa using hlast
    have := ih n hinf2 hlast2 hn
    simp only [Split] at this ⊢
    show splitGo sep3 0 (c :: (d ++ sep3 ++ n)) = [c :: d, n]
    rw [splitGo_zero]
    have hp2 : sep3.isPrefixOf (c :: (d ++ sep3 ++ n)) = false := by simpa using hp
    rw [hp2, this]
    simp

theorem splitGo_length_of_infix :
    ∀ s : GoString, sep3 <:+: s → 2 ≤ (splitGo sep3 0 s).length := by
  intro s
  induction s with
  | nil =>
    intro h
    have := List.IsInfix.length_le h
    simp [sep3] at this
  | cons c cs ih =>
    intro h
    rw [splitGo_zero]
    by_cases hp : sep3.isPrefixOf (c :: cs) = true
    · rw [if_pos hp]
      have := splitGo_ne_nil sep3 cs (sep3.length - 1)
      cases hs : splitGo sep3 (sep3.length - 1) cs with
      | nil => exact absurd hs this
      | cons a b => simp
    · rw [if_neg hp]
      have hcs : sep3 <:+: cs := by
        obtain ⟨t, u, htu⟩ := h
        cases t with
        | nil =>
          exfalso; apply hp
          rw [List.isPrefixOf_iff_prefix]
          exact ⟨u, by simpa using htu⟩
        | cons t0 t =>
          simp only [List.cons_append, List.cons.injEq] at htu
          exact ⟨t, u, htu.2⟩
      have := ih hcs
      cases hs : splitGo sep3 0 cs with
      | nil => rw [hs] at this; simp at this
      | cons a b => rw [hs] at this; simpa using this

theorem TrimRight_CRLF (s : GoString) (h1 : s.getLast? ≠ some '\r')
    (h2 : s.getLast? ≠ some '\n') : TrimRight (s ++ CRLF) CRLF = s := by
  have e : s ++ CRLF = (s ++ ['\r']) ++ ['\n'] := by simp [CRLF]
  rw [e, TrimRight, List.rdropWhile_concat_pos _ _ _ (by simp [CRLF]),
    List.rdropWhile_concat_pos _ _ _ (by simp [CRLF]), List.rdropWhile_eq_self_iff]
  intro hl hp
  have hlast : s.getLast? = some (s.getLast hl) := List.getLast?_eq_getLast _ hl
  simp only [CRLF, List.mem_cons, List.mem_singleton, decide_eq_true_eq] at hp
  simp only [List.not_mem_nil, or_false] at hp
  rcases hp with hp | hp
  · exact h1 (by rw [hlast, hp])
  · exact h2 (by rw [hlast, hp])

theorem TrimRight_keeps (d n : GoString) :
    ∃ n2 : GoString, TrimRight (d ++ sep3 ++ n) CRLF = d ++ sep3 ++ n2 := by
  induction n using List.reverseRecOn with
  | nil =>
    refine ⟨[], ?_⟩
    have e : d ++ sep3 ++ [] = (d ++ [' ', ' ']) ++ [' '] := by simp [sep3]
    rw [e, TrimRight, List.rdropWhile_concat_neg _ _ _ (by simp [CRLF])]
  | append_singleton n c ih =>
    by_cases hc : c ∈ CRLF
    · obtain ⟨n2, h⟩ := ih
      refine ⟨n2, ?_⟩
      have e : d ++ sep3 ++ (n ++ [c]) = (d ++ sep3 ++ n) ++ [c] := by simp
      rw [e, TrimRight, List.rdropWhile_concat_pos _ _ _ (by simpa using hc)]
      exact h
    · refine ⟨n ++ [c], ?_⟩
      have e : d ++ sep3 ++ (n ++ [c]) = (d ++ sep3 ++ n) ++ [c] := by simp
      rw [e, TrimRight, List.rdropWhile_concat_neg _ _ _ (by simpa using hc)]

theorem readStrings_line (l rest : GoString) (h : '\n' ∉ l) :
    readStrings '\n' (l ++ '\n' :: rest) = (l ++ ['\n'], none) :: readStrings '\n' rest := by
  induction l with
  | nil => simp [readStrings]
  | cons c l ih =>
    simp only [List.mem_cons, not_or] at h
    have hc : ¬ c = '\n' := fun e => h.1 e.symm
    simp [readStrings, hc, ih h.2]

theorem readStrings_records (recs : List (GoString × GoString))
    (h : ∀ r ∈ recs, '\n' ∉ r.1 ∧ '\n' ∉ r.2) :
    readStrings '\n' ((recs.map (fun r => record r.1 r.2)).flatten)
      = recs.map (fun r => (record r.1 r.2, (none : Option ReadErr)))
          ++ [([], some ReadErr.EOF)] := by
  induction recs with
  | nil => simp [readStrings]
  | cons r recs ih =>
    have hr := h r (List.mem_cons_self _ _)
    have hrest := ih (fun x hx => h x (List.mem_cons_of_mem _ hx))
    have e : record r.1 r.2 = (r.1 ++ sep3 ++ r.2 ++ ['\r']) ++ ['\n'] := by
      simp [record, CRLF]
    have hnl : '\n' ∉ r.1 ++ sep3 ++ r.2 ++ ['\r'] := by
      simp [sep3, hr.1, hr.2]
    simp only [List.map_cons, List.flatten_cons, List.cons_append]
    rw [← hrest]
    conv_lhs => rw [e, List.append_assoc, List.singleton_append]
    rw [readStrings_line _ _ hnl, e]

theorem readStrings_shape (delim : Char) (text : GoString) :
    ∃ (pre : List (GoString × Option ReadErr)) (l : GoString),
      readStrings delim text = pre ++ [(l, some ReadErr.EOF)] ∧ ∀ r ∈ pre, r.2 = none := by
  induction text with
  | nil => exact ⟨[], [], rfl, by simp⟩
  | cons c cs ih =>
    obtain ⟨pre, l, h1, h2⟩ := ih
    by_cases hc : c = delim
    · refine ⟨([c], none) :: pre, l, by simp [readStrings, hc, h1], ?_⟩
      intro r hr
      rcases List.mem_cons.mp hr with rfl | hr
      · rfl
      · exact h2 r hr
    · cases pre with
      | nil =>
        refine ⟨[], c :: l, ?_, by simp⟩
        simp only [readStrings, hc, if_false, h1, List.nil_append]
      | cons p pre =>
        obtain ⟨pl, pe⟩ := p
        refine ⟨(c :: pl, pe) :: pre, l, ?_, ?_⟩
        · simp only [readStrings, hc, if_false, h1, List.cons_append]
        · intro r hr
          rcases List.mem_cons.mp hr with rfl | hr
          · exact h2 (pl, pe) (List.mem_cons_self _ _)
          · exact h2 r (List.mem_cons_of_mem _ hr)

/-! ## Loading the manifest -/

theorem loadLoop_eof (l : GoString) (rd : List (GoString × Option ReadErr))
    (m : GoMap GoString GoString) : loadLoop ((l, some ReadErr.EOF) :: rd) m = .ok m := by
  simp [loadLoop]

theorem loadLoop_line_ok (line : GoString) (rd : List (GoString × Option ReadErr))
    (m : GoMap GoString GoString) (h : 2 ≤ (Split (TrimRight line CRLF) sep3).length) :
    loadLoop ((line, none) :: rd) m
      = loadLoop rd (m.set ((Split (TrimRight line CRLF) sep3).getD 1 [])
          ((Split (TrimRight line CRLF) sep3).getD 0 [])) := by
  rcases hs : Split (TrimRight line CRLF) sep3 with _ | ⟨a, _ | ⟨b, t⟩⟩
  · rw [hs] at h; simp at h
  · rw [hs] at h; simp at h
  · simp [loadLoop, hs]

theorem loadLoop_line_panic (line : GoString) (rd : List (GoString × Option ReadErr))
    (m : GoMap GoString GoString) (h : (Split (TrimRight line CRLF) sep3).length < 2) :
    loadLoop ((line, none) :: rd) m = .error Stop.panic := by
  rcases hs : Split (TrimRight line CRLF) sep3 with _ | ⟨a, _ | ⟨b, t⟩⟩
  · simp [loadLoop, hs]
  · simp [loadLoop, hs]
  · rw [hs] at h; simp only [List.length_cons] at h; omega

theorem loadLoop_all_ok (pre : List (GoString × Option ReadErr)) (l : GoString) :
    ∀ m : GoMap GoString GoString,
      (∀ r ∈ pre, r.2 = none) →
      (∀ r ∈ pre, 2 ≤ (Split (TrimRight r.1 CRLF) sep3).length) →
      loadLoop (pre ++ [(l, some ReadErr.EOF)]) m
        = .ok (pre.foldl (fun m r => m.set ((Split (TrimRight r.1 CRLF) sep3).getD 1 [])
            ((Split (TrimRight r.1 CRLF) sep3).getD 0 [])) m) := by
  induction pre with
  | nil => intro m _ _; exact loadLoop_eof l [] m
  | cons r pre ih =>
    intro m h1 h2
    obtain ⟨line, e⟩ := r
    have he : e = none := h1 (line, e) (List.mem_cons_self _ _)
    subst he
    rw [List.cons_append, loadLoop_line_ok line _ m (h2 _ (List.mem_cons_self _ _)),
      ih _ (fun x hx => h1 x (List.mem_cons_of_mem _ hx))
        (fun x hx => h2 x (List.mem_cons_of_mem _ hx))]
    rfl

theorem loadLoop_some_panic (pre : List (GoString × Option ReadErr)) (l : GoString) :
    ∀ m : GoMap GoString GoString,
      (∀ r ∈ pre, r.2 = none) →
      (∃ r ∈ pre, (Split (TrimRight r.1 CRLF) sep3).length < 2) →
      loadLoop (pre ++ [(l, some ReadErr.EOF)]) m = .error Stop.panic := by
  induction pre with
  | nil => intro m _ h; obtain ⟨r, hr, _⟩ := h; cases hr
  | cons r pre ih =>
    intro m h1 h2
    obtain ⟨line, e⟩ := r
    have he : e = none := h1 (line, e) (List.mem_cons_self _ _)
    subst he
    by_cases hl : (Split (TrimRight line CRLF) sep3).length < 2
    · rw [List.cons_append, loadLoop_line_panic line _ m hl]
    · rw [List.cons_append, loadLoop_line_ok line _ m (by omega)]
      apply ih _ (fun x hx => h1 x (List.mem_cons_of_mem _ hx))
      obtain ⟨r, hr, hr2⟩ := h2
      rcases List.mem_cons.mp hr with rfl | hr
      · exact absurd hr2 hl
      · exact ⟨r, hr, hr2⟩

theorem foldl_set_get? (f : GoString → GoString) (names : List GoString) :
    ∀ (m : GoMap GoString GoString) (j : GoString),
      GoMap.get? (names.foldl (fun m k => m.set k (f k)) m) j
        = if j ∈ names then some (f j) else m.get? j := by
  induction names with
  | nil => intro m j; simp
  | cons k ks ih =>
    intro m j
    rw [List.foldl_cons, ih, GoMap.get?_set]
    by_cases h1 : j ∈ ks
    · simp [h1]
    · by_cases h2 : j = k
      · simp [h2]
      · simp [h1, h2]

theorem foldl_set_nodup (f : GoString → GoString) (names : List GoString) :
    ∀ m : GoMap GoString GoString, m.keys.Nodup →
      (names.foldl (fun m k => m.set k (f k)) m).keys.Nodup := by
  induction names with
  | nil => intro m h; exact h
  | cons k ks ih => intro m h; exact ih _ (GoMap.nodup_keys_set m k (f k) h)

/-- Loading a text made of records whose digests and names fit. -/
theorem loadManifest_records (f : GoString → GoString) (names : List GoString)
    (h : ∀ k ∈ names, NameFits k ∧ SumFits (f k)) :
    loadManifest ((names.map (fun k => record (f k) k)).flatten)
      = .ok (names.foldl (fun m k => m.set k (f k)) GoMap.empty) := by
  have hrs := readStrings_records (names.map (fun k => (f k, k))) (by
    intro r hr
    obtain ⟨k, hk, rfl⟩ := List.mem_map.mp hr
    exact ⟨(h k hk).2.2.1, (h k hk).1.2.1⟩)
  simp only [List.map_map, Function.comp_def] at hrs
  rw [loadManifest, hrs]
  have hsplit : ∀ k ∈ names,
      Split (TrimRight (record (f k) k) CRLF) sep3 = [f k, k] := by
    intro k hk
    obtain ⟨⟨n1, n2, n3⟩, ⟨s1, s2, s3⟩⟩ := h k hk
    have ht : TrimRight (record (f k) k) CRLF = f k ++ sep3 ++ k := by
      apply TrimRight_CRLF
      · cases k with
        | nil => simp [sep3]
        | cons c cs => simpa [sep3] using n3
      · cases k with
        | nil => simp [sep3]
        | cons c cs =>
          have : (c :: cs).getLast? ≠ some '\n' := by
            intro hl
            exact n2 (List.mem_of_getLast?_eq_some hl)
          simpa [sep3] using this
    rw [ht]
    exact Split_record (f k) k s1 s3 n1
  rw [loadLoop_all_ok _ [] GoMap.empty (by simp) (by
    intro r hr
    obtain ⟨k, hk, rfl⟩ := List.mem_map.mp hr
    rw [hsplit k hk]; simp)]
  congr 1
  rw [List.foldl_map]
  apply List.foldl_ext
  intro m k hk
  rw [hsplit k hk]
  rfl

/-- Claim C3, as the code has it. When every file name of the mapping contains
neither the three-space separator nor a line feed and does not end in a
carriage return, and every digest contains neither the separator nor a line
feed and does not end in a space, the text RewriteShaFile writes is loaded by
the manifest loader of main without error, as a mapping that gives every name
the digest the written mapping gave it and has no other name. -/
theorem manifest_round_trip (shaFile : File) (shaMap : GoMap GoString GoString)
    (hfit : ∀ e ∈ shaMap.entries, NameFits e.1 ∧ SumFits e.2) :
    ∃ m : GoMap GoString GoString,
      loadManifest (RewriteShaFile shaFile shaMap).data = .ok m
      ∧ (∀ k, m.get? k = shaMap.get? k)
      ∧ m.keys.Nodup := by
  have hnames : ∀ k ∈ sortStrings shaMap.keys, NameFits k ∧ SumFits (shaMap.getD k []) := by
    intro k hk
    have hk2 : k ∈ shaMap.keys := (sortStrings_perm _).mem_iff.mp hk
    have hsome := (GoMap.get?_isSome_iff shaMap k).mpr hk2
    obtain ⟨v, hv⟩ := Option.isSome_iff_exists.mp hsome
    have := hfit (k, v) (GoMap.mem_of_get? shaMap k v hv)
    simpa [GoMap.getD, hv] using this
  refine ⟨(sortStrings shaMap.keys).foldl (fun m k => m.set k (shaMap.getD k [])) GoMap.empty,
    ?_, ?_, ?_⟩
  · rw [RewriteShaFile_eq]
    exact loadManifest_records (fun v => shaMap.getD v []) _ hnames
  · intro k
    rw [foldl_set_get?]
    by_cases hk : k ∈ shaMap.keys
    · have hk2 : k ∈ sortStrings shaMap.keys := (sortStrings_perm _).mem_iff.mpr hk
      obtain ⟨v, hv⟩ := Option.isSome_iff_exists.mp ((GoMap.get?_isSome_iff shaMap k).mpr hk)
      simp [hk2, GoMap.getD, hv]
    · have hk2 : k ∉ sortStrings shaMap.keys := fun h => hk ((sortStrings_perm _).mem_iff.mp h)
      rw [if_neg hk2, (GoMap.get?_eq_none_iff shaMap k).mpr hk]
      rfl
  · exact foldl_set_nodup _ _ _ (by simp [GoMap.empty, GoMap.keys])

/-- Claim C3 on a mapping of two entries whose names contain spaces. -/
theorem manifest_round_trip_witness :
    ∃ m : GoMap GoString GoString,
      loadManifest (RewriteShaFile ⟨[], 0⟩
          ⟨[(['a', ' ', 'b'], ['0', 'f']), ([' ', ' ', 'c'], ['1', 'e'])]⟩).data = .ok m
      ∧ (∀ k, m.get? k
          = GoMap.get? ⟨[(['a', ' ', 'b'], ['0', 'f']), ([' ', ' ', 'c'], ['1', 'e'])]⟩ k)
      ∧ m.keys.Nodup :=
  manifest_round_trip ⟨[], 0⟩ ⟨[(['a', ' ', 'b'], ['0', 'f']), ([' ', ' ', 'c'], ['1', 'e'])]⟩
    (by decide)

/-- Claim C3 fails as stated: the name `a` followed by a carriage return does
not contain the separator, yet the mapping that gives it the digest `d` is
written and then loaded as a mapping that knows the name `a` instead. -/
theorem manifest_round_trip_fails :
    ¬ sep3 <:+: ['a', '\r']
    ∧ loadManifest (RewriteShaFile ⟨[], 0⟩ ⟨[(['a', '\r'], ['d'])]⟩).data
        = .ok ⟨[(['a'], ['d'])]⟩
    ∧ GoMap.get? (⟨[(['a'], ['d'])]⟩ : GoMap GoString GoString) ['a', '\r']
        ≠ GoMap.get? (⟨[(['a', '\r'], ['d'])]⟩ : GoMap GoString GoString) ['a', '\r'] := by
  decide

/-- Claim C7, as the code has it. The lines of the manifest are what ReadString
returns before the end of the text, each trimmed of trailing CR and LF and
split on three spaces. If one of them has fewer than two fields the load stops
the run with a panic and yields no mapping; if every one has two fields or
more the load succeeds, each line giving the name in its second field the
digest in its first field, fields past the second being ignored. What follows
the last line feed is not parsed. -/
theorem loadManifest_fields (text : GoString) :
    ((∃ r ∈ (readStrings '\n' text).dropLast,
        (Split (TrimRight r.1 CRLF) sep3).length < 2) →
      loadManifest text = .error Stop.panic)
    ∧ ((∀ r ∈ (readStrings '\n' text).dropLast,
        2 ≤ (Split (TrimRight r.1 CRLF) sep3).length) →
      loadManifest text
        = .ok ((readStrings '\n' text).dropLast.foldl
            (fun m r => m.set ((Split (TrimRight r.1 CRLF) sep3).getD 1 [])
              ((Split (TrimRight r.1 CRLF) sep3).getD 0 [])) GoMap.empty)) := by
  obtain ⟨pre, l, h1, h2⟩ := readStrings_shape '\n' text
  have hd : (readStrings '\n' text).dropLast = pre := by rw [h1, List.dropLast_concat]
  rw [hd, loadManifest, h1]
  exact ⟨loadLoop_some_panic pre l _ h2, loadLoop_all_ok pre l _ h2⟩

/-- Claim C7 on a manifest whose second line has one field, and on a manifest of
one well-formed line followed by text without a line feed. -/
theorem loadManifest_fields_witness :
    loadManifest ['d', ' ', ' ', ' ', 'a', '\r', '\n', 'x', '\r', '\n'] = .error Stop.panic
    ∧ loadManifest ['d', ' ', ' ', ' ', 'a', '\r', '\n', 'x'] = .ok ⟨[(['a'], ['d'])]⟩ := by
  refine ⟨(loadManifest_fields _).1 ⟨(['x', '\r', '\n'], none), by decide, by decide⟩, ?_⟩
  exact ((loadManifest_fields _).2 (by decide)).trans (by decide)

/-- Claim C7 fails as stated: a line of three fields is not rejected; the load
succeeds and the line gives the name in its second field an entry. -/
theorem loadManifest_accepts_three_fields :
    (Split (TrimRight ['d', ' ', ' ', ' ', 'a', ' ', ' ', ' ', 'b', '\r', '\n'] CRLF)
        sep3).length = 3
    ∧ loadManifest ['d', ' ', ' ', ' ', 'a', ' ', ' ', ' ', 'b', '\r', '\n']
        = .ok ⟨[(['a'], ['d'])]⟩ := by
  decide

/-! ## Sprintf without operands -/

theorem parsenum_length : ∀ (s : GoString) (num : Nat) (isnum b : Bool) (r : GoString),
    parsenum num isnum s = some (b, r) → r.length ≤ s.length := by
  intro s
  induction s with
  | nil =>
    intro num isnum b r h
    simp only [parsenum, Option.some.injEq, Prod.mk.injEq] at h
    rw [← h.2]
  | cons c cs ih =>
    intro num isnum b r h
    unfold parsenum at h
    split at h
    · split at h
      · cases h
      · have := ih _ _ _ _ h
        simp only [List.length_cons]
        omega
    · simp only [Option.some.injEq, Prod.mk.injEq] at h
      rw [← h.2]

theorem argNumber_length (st : VerbState) : (argNumber st).rest.length ≤ st.rest.length := by
  unfold argNumber
  split
  · simp only [List.length_drop]; omega
  · exact Nat.le_refl _

theorem verbFlags_length (st : VerbState) : (verbFlags st).rest.length ≤ st.rest.length :=
  (List.dropWhile_sublist isFlag).length_le

theorem verbWidth_length (st : VerbState) : (verbWidth st).rest.length ≤ st.rest.length := by
  unfold verbWidth
  split
  · rename_i rest h; rw [h]; simp
  · split
    · simp
    · rename_i w rest h
      exact parsenum_length _ _ _ _ _ h

theorem verbPrec_length (st : VerbState) : (verbPrec st).rest.length ≤ st.rest.length := by
  unfold verbPrec
  split
  · rename_i rest h
    have h1 := argNumber_length
      { st with rest := rest, goodArgNum := if st.afterIndex then false else st.goodArgNum }
    simp only at h1
    rw [h]
    simp only [List.length_cons]
    split
    · rename_i rest1 h2
      rw [h2] at h1
      simp only [List.length_cons] at h1 ⊢
      omega
    · split
      · simp
      · rename_i w rest1 h3
        have := parsenum_length _ _ _ _ _ h3
        simp only
        omega
  · exact Nat.le_refl _

theorem verbIndex_length (st : VerbState) : (verbIndex st).rest.length ≤ st.rest.length := by
  unfold verbIndex
  split
  · exact Nat.le_refl _
  · exact argNumber_length st

theorem verbEnd_length (st : VerbState) : (verbEnd st).2.length ≤ st.rest.length := by
  unfold verbEnd
  split
  · simp
  · rename_i verb rest h
    rw [h]
    split
    · simp
    · split <;> simp

theorem printVerb_length (s : GoString) : (printVerb s).2.length ≤ s.length := by
  unfold printVerb
  have h1 := verbFlags_length ⟨s, [], true, false⟩
  have h2 := argNumber_length (verbFlags ⟨s, [], true, false⟩)
  have h3 := verbWidth_length (argNumber (verbFlags ⟨s, [], true, false⟩))
  have h4 := verbPrec_length (verbWidth (argNumber (verbFlags ⟨s, [], true, false⟩)))
  have h5 := verbIndex_length
    (verbPrec (verbWidth (argNumber (verbFlags ⟨s, [], true, false⟩))))
  have h6 := verbEnd_length
    (verbIndex (verbPrec (verbWidth (argNumber (verbFlags ⟨s, [], true, false⟩)))))
  simp only at h1
  omega

/-- The fuel `Sprintf` gives `doPrintf` is enough: more fuel changes nothing. -/
theorem doPrintf_fuel : ∀ (f1 f2 : Nat) (s : GoString), s.length < f1 → s.length < f2 →
    doPrintf f1 s = doPrintf f2 s := by
  intro f1
  induction f1 with
  | zero => intro f2 s h; omega
  | succ f1 ih =>
    intro f2 s h1 h2
    cases f2 with
    | zero => omega
    | succ f2 =>
      cases s with
      | nil => rfl
      | cons c cs =>
        simp only [List.length_cons] at h1 h2
        have hp := printVerb_length cs
        simp only [doPrintf]
        split
        · rw [ih f2 (printVerb cs).2 (by omega) (by omega)]
        · rw [ih f2 cs (by omega) (by omega)]

theorem doPrintf_no_percent : ∀ (f : Nat) (s : GoString), s.length < f → '%' ∉ s →
    doPrintf f s = s := by
  intro f
  induction f with
  | zero => intro s h; omega
  | succ f ih =>
    intro s h hp
    cases s with
    | nil => rfl
    | cons c cs =>
      simp only [List.mem_cons, not_or] at hp
      simp only [List.length_cons] at h
      have hc : ¬ c = '%' := fun e => hp.1 e.symm
      simp only [doPrintf, hc, if_false]
      rw [ih cs (by omega) hp.2]

/-- A format without a percent sign is returned as it is. -/
theorem Sprintf_no_percent (s : GoString) (h : '%' ∉ s) : Sprintf s = s :=
  doPrintf_no_percent _ s (by omega) h

theorem filePath_no_percent (sep : Char) (req : Required) (v : GoString)
    (h1 : '%' ∉ req.Source) (h2 : sep ≠ '%') (h3 : '%' ∉ v) :
    filePath sep req v = req.Source ++ [sep] ++ v := by
  apply Sprintf_no_percent
  simp only [List.mem_append, List.mem_singleton, not_or]
  exact ⟨⟨h1, fun e => h2 e.symm⟩, h3⟩

/-! ## The modes of main -/

theorem hashEach_ok (fc : GoString → Except Stop GoString) (sep : Char) (req : Required)
    (todo : List GoString) :
    ∀ st : Run, (∀ v ∈ todo, ∃ d, fc (filePath sep req v) = .ok d) →
      ∃ st2 : Run, hashEach fc sep req todo st = .ok st2
        ∧ st2.shaFile = st.shaFile
        ∧ st2.hashed = st.hashed ++ todo.map (filePath sep req)
        ∧ (∀ k, st2.shaMap.get? k
            = if k ∈ todo then (fc (filePath sep req k)).toOption else st.shaMap.get? k)
        ∧ (st.shaMap.keys.Nodup → st2.shaMap.keys.Nodup) := by
  induction todo with
  | nil => intro st _; exact ⟨st, rfl, rfl, by simp, by simp, fun h => h⟩
  | cons v vs ih =>
    intro st h
    obtain ⟨d, hd⟩ := h v (List.mem_cons_self _ _)
    obtain ⟨st2, h1, h2, h3, h4, h5⟩ :=
      ih { st with shaMap := st.shaMap.set v d, hashed := st.hashed ++ [filePath sep req v] }
        (fun x hx => h x (List.mem_cons_of_mem _ hx))
    refine ⟨st2, ?_, h2, ?_, ?_, ?_⟩
    · simp only [hashEach, hd]; exact h1
    · rw [h3]; simp
    · intro k
      rw [h4, GoMap.get?_set]
      by_cases hk : k ∈ vs
      · simp [hk]
      · by_cases hkv : k = v
        · simp [hkv, hd, Except.toOption]
        · simp [hk, hkv]
    · intro hn
      exact h5 (GoMap.nodup_keys_set _ _ _ hn)

theorem hashEach_inv (fc : GoString → Except Stop GoString) (sep : Char) (req : Required)
    (todo : List GoString) :
    ∀ st st2 : Run, hashEach fc sep req todo st = .ok st2 →
      ∀ v ∈ todo, ∃ d, fc (filePath sep req v) = .ok d := by
  induction todo with
  | nil => intro st st2 _ v hv; cases hv
  | cons x xs ih =>
    intro st st2 h v hv
    cases hx : fc (filePath sep req x) with
    | error e => simp [hashEach, hx] at h
    | ok d =>
      simp only [hashEach, hx] at h
      rcases List.mem_cons.mp hv with rfl | hv
      · exact ⟨d, hx⟩
      · exact ih _ _ h v hv

theorem ClearOrphans_idem (orphans : List GoString) (shaMap : GoMap GoString GoString) :
    ClearOrphans orphans (ClearOrphans orphans shaMap) = ClearOrphans orphans shaMap := by
  have h1 := ClearOrphans_entries orphans (ClearOrphans orphans shaMap)
  rw [ClearOrphans_entries orphans shaMap, List.filter_filter] at h1
  have h2 := ClearOrphans_entries orphans shaMap
  cases hA : ClearOrphans orphans (ClearOrphans orphans shaMap) with
  | mk a =>
    cases hB : ClearOrphans orphans shaMap with
    | mk b =>
      rw [hA] at h1; rw [hB] at h2
      simp only at h1 h2
      rw [h1, h2]
      congr 1
      apply List.filter_congr
      intro e _
      simp

theorem RewriteShaFile_file_irrel (f1 f2 : File) (shaMap : GoMap GoString GoString) :
    RewriteShaFile f1 shaMap = RewriteShaFile f2 shaMap := by
  rw [RewriteShaFile_eq, RewriteShaFile_eq]

theorem RewriteShaFile_congr (f1 f2 : File) (m1 m2 : GoMap GoString GoString)
    (h1 : m1.keys.Nodup) (h2 : m2.keys.Nodup) (hget : ∀ k, m1.get? k = m2.get? k) :
    RewriteShaFile f1 m1 = RewriteShaFile f2 m2 := by
  have hperm : m1.keys.Perm m2.keys := by
    rw [List.perm_ext_iff_of_nodup h1 h2]
    intro k
    rw [← GoMap.get?_isSome_iff, ← GoMap.get?_isSome_iff, hget]
  rw [RewriteShaFile_eq, RewriteShaFile_eq, sortStrings_congr _ _ hperm]
  have : (fun v => record (m1.getD v []) v) = (fun v => record (m2.getD v []) v) := by
    funext v; simp [GoMap.getD, hget]
  rw [this]

/-- The state in which the recompute modes start, after the mode of `-c`. -/
theorem clearMode_ok (opt : Options) (orphans : List GoString) (st : Run)
    (h : opt.All = true ∨ opt.New = true) :
    ∃ st2 : Run, clearMode opt orphans st = .ok st2
      ∧ st2.hashed = st.hashed
      ∧ ClearOrphans orphans st2.shaMap = ClearOrphans orphans st.shaMap
      ∧ (st.shaMap.keys.Nodup → st2.shaMap.keys.Nodup) := by
  by_cases hc : opt.Clear = true
  · have hx : (!opt.All && !opt.New) = false := by
      rcases h with h | h <;> simp [h]
    refine ⟨{ st with shaMap := ClearOrphans orphans st.shaMap,
                      shaFile := RewriteShaFile st.shaFile (ClearOrphans orphans st.shaMap) },
      ?_, rfl, ?_, ?_⟩
    · simp only [clearMode, hc, if_true, hx]
      rfl
    · exact ClearOrphans_idem orphans st.shaMap
    · exact ClearOrphans_nodup orphans st.shaMap
  · exact ⟨st, by simp [clearMode, hc], rfl, rfl, fun h => h⟩

/-- A recompute mode that is on, over files that can all be hashed. -/
theorem hashMode_on (fc : GoString → Except Stop GoString) (sep : Char) (req : Required)
    (orphans todo : List GoString)
    (st : Run) (h : ∀ v ∈ todo, ∃ d, fc (filePath sep req v) = .ok d) :
    ∃ st2 : Run, hashMode true fc sep req orphans todo st = .ok st2
      ∧ st2.hashed = st.hashed ++ todo.map (filePath sep req)
      ∧ st2.shaFile = RewriteShaFile st.shaFile st2.shaMap
      ∧ (∀ k, st2.shaMap.get? k
          = if k ∈ todo then (fc (filePath sep req k)).toOption
            else (ClearOrphans orphans st.shaMap).get? k)
      ∧ (st.shaMap.keys.Nodup → st2.shaMap.keys.Nodup) := by
  obtain ⟨st2, h1, h2, h3, h4, h5⟩ :=
    hashEach_ok fc sep req todo { st with shaMap := ClearOrphans orphans st.shaMap } h
  refine ⟨{ st2 with shaFile := RewriteShaFile st2.shaFile st2.shaMap }, ?_, h3, ?_, h4, ?_⟩
  · simp only [hashMode, if_true, h1]
  · exact RewriteShaFile_file_irrel _ _ _
  · intro hn
    exact h5 (ClearOrphans_nodup _ _ hn)

theorem hashMode_on_inv (fc : GoString → Except Stop GoString) (sep : Char) (req : Required)
    (orphans todo : List GoString)
    (st st2 : Run) (h : hashMode true fc sep req orphans todo st = .ok st2) :
    ∀ v ∈ todo, ∃ d, fc (filePath sep req v) = .ok d := by
  simp only [hashMode, if_true] at h
  cases hx : hashEach fc sep req todo { st with shaMap := ClearOrphans orphans st.shaMap } with
  | error e => rw [hx] at h; simp at h
  | ok s => exact hashEach_inv fc sep req todo _ s hx

theorem hashMode_off (fc : GoString → Except Stop GoString) (sep : Char) (req : Required)
    (orphans todo : List GoString)
    (st : Run) : hashMode false fc sep req orphans todo st = .ok st := by
  simp [hashMode]

theorem mainModes_new (opt : Options) (fc : GoString → Except Stop GoString) (sep : Char)
    (req : Required) (files : List GoString) (shaMap : GoMap GoString GoString)
    (shaFile : File) (hAll : opt.All = false) (hNew : opt.New = true)
    (hfc : ∀ v ∈ computeNews (removeSha1 files) shaMap, ∃ d, fc (filePath sep req v) = .ok d) :
    ∃ st : Run, mainModes opt fc sep req files shaMap shaFile = .ok st
      ∧ st.hashed = (computeNews (removeSha1 files) shaMap).map (filePath sep req)
      ∧ st.shaFile = RewriteShaFile shaFile st.shaMap
      ∧ (∀ k, st.shaMap.get? k
          = if k ∈ computeNews (removeSha1 files) shaMap then (fc (filePath sep req k)).toOption
            else if k ∈ computeOrphans (removeSha1 files) shaMap then none
            else shaMap.get? k) := by
  obtain ⟨sc, c1, c2, c3, _⟩ :=
    clearMode_ok opt (computeOrphans (removeSha1 files) shaMap) ⟨shaMap, shaFile, []⟩
      (Or.inr hNew)
  obtain ⟨st, s1, s2, s3, s4, _⟩ :=
    hashMode_on fc sep req (computeOrphans (removeSha1 files) shaMap)
      (computeNews (removeSha1 files) shaMap) sc hfc
  refine ⟨st, ?_, ?_, ?_, ?_⟩
  · simp only [mainModes, c1, hAll, hNew, hashMode_off]
    exact s1
  · rw [s2, c2]; rfl
  · rw [s3]; exact RewriteShaFile_file_irrel _ _ _
  · intro k
    rw [s4, c3, ClearOrphans_get?]

/-- The recompute-new run when neither the source directory, nor the path
separator, nor any listed name holds a percent sign, so that the path built
for a file is the directory, the separator and the name: the paths handed to
fileCutter are those of news, in order; the keys of the final mapping are the
listed names other than `.sha1`; a listed file that had an entry keeps its
digest; a new file has the digest fileCutter returned for its path; an orphan
has no entry. -/
theorem recompute_new_without_percent (opt : Options) (fc : GoString → Except Stop GoString)
    (sep : Char) (req : Required) (files : List GoString)
    (shaMap : GoMap GoString GoString) (shaFile : File)
    (hAll : opt.All = false) (hNew : opt.New = true) (hnd : files.Nodup)
    (hsrc : '%' ∉ req.Source) (hsep : sep ≠ '%') (hnames : ∀ v ∈ files, '%' ∉ v)
    (hfc : ∀ v ∈ computeNews (removeSha1 files) shaMap,
      ∃ d, fc (req.Source ++ [sep] ++ v) = .ok d) :
    ∃ st : Run, mainModes opt fc sep req files shaMap shaFile = .ok st
      ∧ st.hashed = (computeNews (removeSha1 files) shaMap).map (fun v => req.Source ++ [sep] ++ v)
      ∧ st.shaFile = RewriteShaFile shaFile st.shaMap
      ∧ (∀ k, k ∈ st.shaMap.keys ↔ k ∈ files ∧ k ≠ dotSha1)
      ∧ (∀ k, k ∈ removeSha1 files → k ∈ shaMap.keys → st.shaMap.get? k = shaMap.get? k)
      ∧ (∀ k d, k ∈ computeNews (removeSha1 files) shaMap →
          fc (req.Source ++ [sep] ++ k) = .ok d → st.shaMap.get? k = some d)
      ∧ (∀ k, k ∈ computeOrphans (removeSha1 files) shaMap → st.shaMap.get? k = none) := by
  have hpath : ∀ v ∈ computeNews (removeSha1 files) shaMap,
      filePath sep req v = req.Source ++ [sep] ++ v := by
    intro v hv
    exact filePath_no_percent sep req v hsrc hsep
      (hnames v (removeSha1_subset files ((mem_computeNews _ _ v).mp hv).1))
  have hfc2 : ∀ v ∈ computeNews (removeSha1 files) shaMap,
      ∃ d, fc (filePath sep req v) = .ok d := by
    intro v hv
    rw [hpath v hv]
    exact hfc v hv
  obtain ⟨st, h1, h2, h3, h4⟩ :=
    mainModes_new opt fc sep req files shaMap shaFile hAll hNew hfc2
  refine ⟨st, h1, ?_, h3, ?_, ?_, ?_, ?_⟩
  · rw [h2]
    exact List.map_congr_left hpath
  · intro k
    rw [← mem_removeSha1 files hnd, ← GoMap.get?_isSome_iff, h4]
    by_cases hn : k ∈ computeNews (removeSha1 files) shaMap
    · obtain ⟨d, hd⟩ := hfc2 k hn
      simp [hn, hd, Except.toOption, ((mem_computeNews _ _ k).mp hn).1]
    · by_cases ho : k ∈ computeOrphans (removeSha1 files) shaMap
      · simp [hn, ho, ((mem_computeOrphans _ _ k).mp ho).2]
      · rw [if_neg hn, if_neg ho, GoMap.get?_isSome_iff]
        rw [mem_computeNews] at hn
        rw [mem_computeOrphans] at ho
        tauto
  · intro k hk hm
    have hn : k ∉ computeNews (removeSha1 files) shaMap := fun h =>
      ((mem_computeNews _ _ k).mp h).2 hm
    have ho : k ∉ computeOrphans (removeSha1 files) shaMap := fun h =>
      ((mem_computeOrphans _ _ k).mp h).2 hk
    rw [h4, if_neg hn, if_neg ho]
  · intro k d hk hd
    rw [h4, if_pos hk, hpath k hk, hd]; rfl
  · intro k hk
    have hn : k ∉ computeNews (removeSha1 files) shaMap := fun h =>
      ((mem_computeOrphans _ _ k).mp hk).2 ((mem_computeNews _ _ k).mp h).1
    rw [h4, if_neg hn, if_pos hk]

theorem fileCutter_empty (sha1 : Bytes → Bytes) (B : Nat) (env : FileEnv)
    (hopen : env.openOk = true) (hdata : env.data = []) :
    fileCutter sha1 B env = .ok (sprintfHex (sha1 [])) := by
  simp [fileCutter, hopen, hdata, dispatch_nil, aggregate, waitCompleted, recvChecksums,
    feedBlocks, sha1New, Hasher.Sum, bind, Except.bind, pure, Except.pure]

theorem fileCutter_one_byte (sha1 : Bytes → Bytes) (b : UInt8) :
    fileCutter sha1 BUFFER ⟨true, [b], fullRead BUFFER, id⟩
      = .ok (sprintfHex (sha1 (sha1 [b]))) := by
  obtain ⟨sent, h1, _, h3⟩ :=
    fileCutter_eq sha1 BUFFER ⟨true, [b], fullRead BUFFER, id⟩ rfl (fun l => List.Perm.refl l)
  have hd : dispatch BUFFER (fullRead BUFFER) [b] = .ok ([⟨0, [b], []⟩], 1) := by
    simp [dispatch, readLoop, fullRead, BUFFER]
  simp only at h1
  rw [hd] at h1
  simp only [Except.ok.injEq, Prod.mk.injEq] at h1
  rw [h3, ← h1.1]
  simp

/-- Claim C10, the code at the failing input. The directory `d` holds the files
`a%%b` (empty) and `a%b` (one byte), and the manifest has an entry for `a%b`
only, so news is `a%%b`. The path built for it by line 369 is `d/a%b`: the
run hands that path to fileCutter, which is the path of a file that is not in
news, and stores the digest of that file under the name `a%%b`, where the
digest of the file `a%%b` itself is that of the empty input. -/
theorem recompute_new_hashes_other_file (sha1 : Bytes → Bytes) :
    computeNews (removeSha1 [['a', '%', '%', 'b'], ['a', '%', 'b']])
        ⟨[(['a', '%', 'b'], ['1'])]⟩ = [['a', '%', '%', 'b']]
    ∧ filePath '/' ⟨['d']⟩ ['a', '%', '%', 'b'] = ['d', '/', 'a', '%', 'b']
    ∧ ∃ st : Run,
        mainModes ⟨false, true, false, false⟩
            (cutter sha1 (fun path =>
              if path = ['d', '/', 'a', '%', 'b'] then ⟨true, [1], fullRead BUFFER, id⟩
              else ⟨true, [], fullRead BUFFER, id⟩))
            '/' ⟨['d']⟩ [['a', '%', '%', 'b'], ['a', '%', 'b']]
            ⟨[(['a', '%', 'b'], ['1'])]⟩ ⟨[], 0⟩ = .ok st
        ∧ st.hashed = [['d', '/', 'a', '%', 'b']]
        ∧ st.shaMap.get? ['a', '%', '%', 'b'] = some (sprintfHex (sha1 (sha1 [1])))
        ∧ cutter sha1 (fun path =>
              if path = ['d', '/', 'a', '%', 'b'] then ⟨true, [1], fullRead BUFFER, id⟩
              else ⟨true, [], fullRead BUFFER, id⟩) ['d', '/', 'a', '%', '%', 'b']
            = .ok (sprintfHex (sha1 [])) := by
  have hnews : computeNews (removeSha1 [['a', '%', '%', 'b'], ['a', '%', 'b']])
      ⟨[(['a', '%', 'b'], ['1'])]⟩ = [['a', '%', '%', 'b']] := by decide
  have hpath : filePath '/' ⟨['d']⟩ ['a', '%', '%', 'b'] = ['d', '/', 'a', '%', 'b'] := by
    decide
  have hcut : cutter sha1 (fun path =>
        if path = ['d', '/', 'a', '%', 'b'] then ⟨true, [1], fullRead BUFFER, id⟩
        else ⟨true, [], fullRead BUFFER, id⟩) ['d', '/', 'a', '%', 'b']
      = .ok (sprintfHex (sha1 (sha1 [1]))) := by
    simp only [cutter, if_true]
    exact fileCutter_one_byte sha1 1
  refine ⟨hnews, hpath, ?_⟩
  obtain ⟨st, h1, h2, _, h4⟩ :=
    mainModes_new ⟨false, true, false, false⟩
      (cutter sha1 (fun path =>
        if path = ['d', '/', 'a', '%', 'b'] then ⟨true, [1], fullRead BUFFER, id⟩
        else ⟨true, [], fullRead BUFFER, id⟩))
      '/' ⟨['d']⟩ [['a', '%', '%', 'b'], ['a', '%', 'b']]
      ⟨[(['a', '%', 'b'], ['1'])]⟩ ⟨[], 0⟩ rfl rfl (by
        intro v hv
        rw [hnews] at hv
        simp only [List.mem_singleton] at hv
        subst hv
        rw [hpath]
        exact ⟨_, hcut⟩)
  refine ⟨st, h1, ?_, ?_, ?_⟩
  · rw [h2, hnews]
    simp only [List.map_cons, List.map_nil, hpath]
  · rw [h4, hnews]
    simp only [List.mem_singleton, if_true, hpath, hcut]
    rfl
  · have hne : (['d', '/', 'a', '%', '%', 'b'] : GoString) ≠ ['d', '/', 'a', '%', 'b'] := by
      decide
    simp only [cutter, hne, if_false]
    exact fileCutter_empty sha1 BUFFER _ rfl rfl

theorem checkoutArgs_New : ∀ (args : List GoString) (opt : Options) (tail : List GoString)
    (o : Options) (t : List GoString),
    checkoutArgs args opt tail = .ok (o, t) → o.New = opt.New := by
  intro args
  induction args with
  | nil =>
    intro opt tail o t h
    simp only [checkoutArgs, Except.ok.injEq, Prod.mk.injEq] at h
    rw [h.1]
  | cons v args ih =>
    intro opt tail o t h
    unfold checkoutArgs at h
    split at h
    · cases h
    · split at h
      · cases h
      · cases h
      · have := ih _ _ _ _ h; exact this
      · have := ih _ _ _ _ h; exact this
      · have := ih _ _ _ _ h; exact this
      · cases h
    · exact ih _ _ _ _ h

theorem Checkout_New (readDirOk : GoString → Bool) (args : List GoString) (opt : Options)
    (req : Required) (h : Checkout readDirOk args = .ok (opt, req)) :
    opt.New = !opt.All := by
  unfold Checkout at h
  split at h
  · cases h
  · cases hc : checkoutArgs args ⟨false, false, false, false⟩ [] with
    | error e => rw [hc] at h; cases h
    | ok r =>
      obtain ⟨o, tail⟩ := r
      have hN : o.New = false := checkoutArgs_New _ _ _ _ _ hc
      rw [hc] at h
      simp only at h
      match tail, h with
      | [s], h =>
        simp only at h
        split at h
        · simp only [Except.ok.injEq, Prod.mk.injEq] at h
          rw [← h.1]
          cases hA : o.All <;> simp [hA, hN]
        · cases h

/-! ## Recompute-all, twice -/

theorem ldigits_getD_ne_newline (i : Nat) : ldigits.getD i '0' ≠ '\n' := by
  by_cases h : i < 17
  · have : ∀ j < 17, ldigits.getD j '0' ≠ '\n' := by decide
    exact this i h
  · have hl : ldigits.length ≤ i := by
      have : ldigits.length = 17 := by decide
      omega
    rw [List.getD_eq_default _ _ hl]
    decide

theorem sprintfHex_no_newline (sum : Bytes) : '\n' ∉ sprintfHex sum := by
  intro h
  simp only [sprintfHex, List.mem_flatten, List.mem_map] at h
  obtain ⟨l, ⟨b, _, rfl⟩, hc⟩ := h
  simp only [hexByte, List.mem_cons, List.mem_singleton] at hc
  simp only [List.not_mem_nil, or_false] at hc
  rcases hc with hc | hc
  · exact ldigits_getD_ne_newline _ hc.symm
  · exact ldigits_getD_ne_newline _ hc.symm

theorem aggregate_hex (sha1 : Bytes → Bytes) (parts : Nat) (results : List Block)
    (d : GoString) (h : aggregate sha1 parts results = .ok d) : ∃ sum, d = sprintfHex sum := by
  simp only [aggregate, bind, Except.bind, pure, Except.pure] at h
  split at h
  · cases h
  · split at h
    · cases h
    · simp only [Except.ok.injEq] at h
      exact ⟨_, h.symm⟩

theorem fileCutter_hex (sha1 : Bytes → Bytes) (B : Nat) (env : FileEnv) (d : GoString)
    (h : fileCutter sha1 B env = .ok d) : ∃ sum, d = sprintfHex sum := by
  cases hopen : env.openOk with
  | false => rw [fileCutter_open_error sha1 B env hopen] at h; cases h
  | true =>
    obtain ⟨sent, hd, _⟩ := dispatch_spec B env.reads env.data
    simp only [fileCutter, hopen, hd, bind, Except.bind] at h
    exact aggregate_hex sha1 _ _ d (by simpa using h)

theorem cutter_no_newline (sha1 : Bytes → Bytes) (env : GoString → FileEnv) (v d : GoString)
    (h : cutter sha1 env v = .ok d) : '\n' ∉ d := by
  obtain ⟨sum, rfl⟩ := fileCutter_hex sha1 BUFFER (env v) d h
  exact sprintfHex_no_newline sum

/-- The digest of a file does not depend on the order in which the pool
delivers the results. -/
theorem cutter_congr (sha1 : Bytes → Bytes) (env1 env2 : GoString → FileEnv)
    (henv : ∀ v, (env2 v).openOk = (env1 v).openOk ∧ (env2 v).data = (env1 v).data
      ∧ (env2 v).reads = (env1 v).reads)
    (harr1 : ∀ v l, ((env1 v).arrive l).Perm l) (harr2 : ∀ v l, ((env2 v).arrive l).Perm l)
    (v : GoString) : cutter sha1 env1 v = cutter sha1 env2 v := by
  obtain ⟨ho, hd, hr⟩ := henv v
  cases hopen : (env1 v).openOk with
  | false =>
    rw [cutter, cutter, fileCutter_open_error sha1 BUFFER (env1 v) hopen,
      fileCutter_open_error sha1 BUFFER (env2 v) (ho.trans hopen)]
  | true =>
    obtain ⟨s1, d1, _, e1⟩ := fileCutter_eq sha1 BUFFER (env1 v) hopen (harr1 v)
    obtain ⟨s2, d2, _, e2⟩ := fileCutter_eq sha1 BUFFER (env2 v) (ho.trans hopen) (harr2 v)
    rw [hd, hr, d1] at d2
    simp only [Except.ok.injEq, Prod.mk.injEq] at d2
    rw [cutter, cutter, e1, e2, d2.1]

theorem loadLoop_nodup (rd : List (GoString × Option ReadErr)) :
    ∀ m m2 : GoMap GoString GoString, m.keys.Nodup → loadLoop rd m = .ok m2 →
      m2.keys.Nodup := by
  induction rd with
  | nil =>
    intro m m2 hn h
    simp only [loadLoop, Except.ok.injEq] at h
    exact h ▸ hn
  | cons r rd ih =>
    intro m m2 hn h
    obtain ⟨line, e⟩ := r
    match e, h with
    | some ReadErr.EOF, h =>
      rw [loadLoop_eof] at h
      simp only [Except.ok.injEq] at h
      exact h ▸ hn
    | some ReadErr.other, h => simp [loadLoop] at h
    | none, h =>
      by_cases hl : 2 ≤ (Split (TrimRight line CRLF) sep3).length
      · rw [loadLoop_line_ok line rd m hl] at h
        exact ih _ m2 (GoMap.nodup_keys_set _ _ _ hn) h
      · rw [loadLoop_line_panic line rd m (by omega)] at h
        cases h

theorem loadManifest_nodup (text : GoString) (m : GoMap GoString GoString)
    (h : loadManifest text = .ok m) : m.keys.Nodup :=
  loadLoop_nodup _ GoMap.empty m (by simp [GoMap.empty, GoMap.keys]) h

/-- A text of records whose digests and names hold no line feed is loaded
without error. -/
theorem loadManifest_records_ok (recs : List (GoString × GoString))
    (h : ∀ r ∈ recs, '\n' ∉ r.1 ∧ '\n' ∉ r.2) :
    ∃ m, loadManifest ((recs.map (fun r => record r.1 r.2)).flatten) = .ok m := by
  have hrs := readStrings_records recs h
  rw [loadManifest, hrs]
  refine ⟨_, loadLoop_all_ok _ [] GoMap.empty (by
    intro r hr
    obtain ⟨x, _, rfl⟩ := List.mem_map.mp hr
    rfl) ?_⟩
  intro r hr
  obtain ⟨x, _, rfl⟩ := List.mem_map.mp hr
  have e : record x.1 x.2 = x.1 ++ sep3 ++ (x.2 ++ CRLF) := by simp [record]
  obtain ⟨n2, hn2⟩ := TrimRight_keeps x.1 (x.2 ++ CRLF)
  show 2 ≤ (Split (TrimRight (record x.1 x.2) CRLF) sep3).length
  rw [e, hn2]
  exact splitGo_length_of_infix _ ⟨x.1, n2, rfl⟩

theorem mainModes_all (opt : Options) (fc : GoString → Except Stop GoString) (sep : Char)
    (req : Required)
    (files : List GoString) (shaMap : GoMap GoString GoString) (shaFile : File)
    (hAll : opt.All = true) (hNew : opt.New = false) :
    (∀ st, mainModes opt fc sep req files shaMap shaFile = .ok st →
        ∀ v ∈ removeSha1 files, ∃ d, fc (filePath sep req v) = .ok d)
    ∧ ((∀ v ∈ removeSha1 files, ∃ d, fc (filePath sep req v) = .ok d) →
        ∃ st : Run, mainModes opt fc sep req files shaMap shaFile = .ok st
          ∧ st.hashed = (removeSha1 files).map (filePath sep req)
          ∧ st.shaFile = RewriteShaFile shaFile st.shaMap
          ∧ (shaMap.keys.Nodup → st.shaMap.keys.Nodup)
          ∧ (∀ k, st.shaMap.get? k
              = if k ∈ removeSha1 files then (fc (filePath sep req k)).toOption
                else none)) := by
  obtain ⟨sc, c1, c2, c3, c4⟩ :=
    clearMode_ok opt (computeOrphans (removeSha1 files) shaMap) ⟨shaMap, shaFile, []⟩
      (Or.inl hAll)
  refine ⟨?_, ?_⟩
  · intro st h
    simp only [mainModes, c1, hAll, hNew] at h
    cases hx : hashMode true fc sep req (computeOrphans (removeSha1 files) shaMap)
        (removeSha1 files) sc with
    | error e => rw [hx] at h; cases h
    | ok s => exact hashMode_on_inv fc sep req _ _ sc s hx
  · intro hfc
    obtain ⟨st, s1, s2, s3, s4, s5⟩ :=
      hashMode_on fc sep req (computeOrphans (removeSha1 files) shaMap) (removeSha1 files)
        sc hfc
    refine ⟨st, ?_, ?_, ?_, fun hn => s5 (c4 hn), ?_⟩
    · simp only [mainModes, c1, hAll, hNew, s1, hashMode_off]
    · rw [s2, c2]; rfl
    · rw [s3]; exact RewriteShaFile_file_irrel _ _ _
    · intro k
      rw [s4, c3, ClearOrphans_get?]
      by_cases hk : k ∈ removeSha1 files
      · rw [if_pos hk, if_pos hk]
      · rw [if_neg hk, if_neg hk]
        by_cases ho : k ∈ computeOrphans (removeSha1 files) shaMap
        · rw [if_pos ho]
        · rw [if_neg ho]
          rw [mem_computeOrphans] at ho
          have : k ∉ shaMap.keys := fun h => ho ⟨h, hk⟩
          exact (GoMap.get?_eq_none_iff shaMap k).mpr this

/-- What a completed recompute-all run leaves. -/
theorem mainRun_all (opt : Options) (fc : GoString → Except Stop GoString) (sep : Char)
    (req : Required)
    (files : List GoString) (text : GoString) (st : Run)
    (hAll : opt.All = true) (hNew : opt.New = false)
    (h : mainRun opt fc sep req files text = .ok st) :
    (∀ v ∈ removeSha1 files, ∃ d, fc (filePath sep req v) = .ok d)
    ∧ st.shaFile = RewriteShaFile ⟨[], 0⟩ st.shaMap
    ∧ st.shaMap.keys.Nodup
    ∧ (∀ k, st.shaMap.get? k
        = if k ∈ removeSha1 files then (fc (filePath sep req k)).toOption else none) := by
  unfold mainRun at h
  cases hl : loadManifest text with
  | error e => rw [hl] at h; cases h
  | ok m0 =>
    rw [hl] at h
    simp only at h
    obtain ⟨hinv, hok⟩ :=
      mainModes_all opt fc sep req files m0 ⟨text, text.length⟩ hAll hNew
    have hfc := hinv st h
    obtain ⟨st2, r1, _, r3, r4, r5⟩ := hok hfc
    rw [h] at r1
    simp only [Except.ok.injEq] at r1
    subst r1
    exact ⟨hfc, r3.trans (RewriteShaFile_file_irrel _ _ _), r4 (loadManifest_nodup text m0 hl), r5⟩

theorem mainRun_all_ok (opt : Options) (fc : GoString → Except Stop GoString) (sep : Char)
    (req : Required)
    (files : List GoString) (text : GoString) (m0 : GoMap GoString GoString)
    (hAll : opt.All = true) (hNew : opt.New = false)
    (hl : loadManifest text = .ok m0)
    (hfc : ∀ v ∈ removeSha1 files, ∃ d, fc (filePath sep req v) = .ok d) :
    ∃ st, mainRun opt fc sep req files text = .ok st := by
  obtain ⟨st, r1, _⟩ :=
    (mainModes_all opt fc sep req files m0 ⟨text, text.length⟩ hAll hNew).2 hfc
  exact ⟨st, by simp only [mainRun, hl]; exact r1⟩

/-- Claim C8, as the code has it. Take a recompute-all run that completes, and a
second recompute-all run on the same directory (the listings agree once
`.sha1` is removed, every path opens and reads as before, the pool may deliver
in another order) that starts from the manifest text the first run wrote. If the second
run completes, the manifest text it writes is the text the first run wrote; it
completes whenever its loader accepts that text; and the loader does accept it
when no file name contains a line feed. -/
theorem recompute_all_twice (sha1 : Bytes → Bytes) (opt1 opt2 : Options) (sep : Char)
    (req : Required)
    (env1 env2 : GoString → FileEnv) (files1 files2 : List GoString) (text0 : GoString)
    (st1 : Run)
    (hAll1 : opt1.All = true) (hNew1 : opt1.New = false)
    (hAll2 : opt2.All = true) (hNew2 : opt2.New = false)
    (hfiles : removeSha1 files2 = removeSha1 files1)
    (henv : ∀ v, (env2 v).openOk = (env1 v).openOk ∧ (env2 v).data = (env1 v).data
      ∧ (env2 v).reads = (env1 v).reads)
    (harr1 : ∀ v l, ((env1 v).arrive l).Perm l) (harr2 : ∀ v l, ((env2 v).arrive l).Perm l)
    (hrun1 : mainRun opt1 (cutter sha1 env1) sep req files1 text0 = .ok st1) :
    (∀ st2, mainRun opt2 (cutter sha1 env2) sep req files2 st1.shaFile.data = .ok st2 →
        st2.shaFile.data = st1.shaFile.data)
    ∧ ((∃ m, loadManifest st1.shaFile.data = .ok m) →
        ∃ st2, mainRun opt2 (cutter sha1 env2) sep req files2 st1.shaFile.data = .ok st2
          ∧ st2.shaFile.data = st1.shaFile.data)
    ∧ ((∀ v ∈ removeSha1 files1, '\n' ∉ v) →
        ∃ st2, mainRun opt2 (cutter sha1 env2) sep req files2 st1.shaFile.data = .ok st2
          ∧ st2.shaFile.data = st1.shaFile.data) := by
  obtain ⟨f1, w1, n1, g1⟩ :=
    mainRun_all opt1 _ sep req files1 text0 st1 hAll1 hNew1 hrun1
  have hcut : ∀ v, cutter sha1 env1 v = cutter sha1 env2 v :=
    cutter_congr sha1 env1 env2 henv harr1 harr2
  have hsame : ∀ st2, mainRun opt2 (cutter sha1 env2) sep req files2 st1.shaFile.data = .ok st2 →
      st2.shaFile.data = st1.shaFile.data := by
    intro st2 hrun2
    obtain ⟨_, w2, n2, g2⟩ := mainRun_all opt2 _ sep req files2 _ st2 hAll2 hNew2 hrun2
    rw [w2, w1, RewriteShaFile_congr ⟨[], 0⟩ ⟨[], 0⟩ st2.shaMap st1.shaMap n2 n1]
    intro k
    rw [g2, g1, hfiles, hcut]
  have hfc2 : ∀ v ∈ removeSha1 files2,
      ∃ d, cutter sha1 env2 (filePath sep req v) = .ok d := by
    intro v hv
    rw [hfiles] at hv
    obtain ⟨d, hd⟩ := f1 v hv
    exact ⟨d, (hcut _) ▸ hd⟩
  have hdone : (∃ m, loadManifest st1.shaFile.data = .ok m) →
      ∃ st2, mainRun opt2 (cutter sha1 env2) sep req files2 st1.shaFile.data = .ok st2
        ∧ st2.shaFile.data = st1.shaFile.data := by
    intro hload
    obtain ⟨m, hm⟩ := hload
    obtain ⟨st2, h2⟩ := mainRun_all_ok opt2 _ sep req files2 _ m hAll2 hNew2 hm hfc2
    exact ⟨st2, h2, hsame st2 h2⟩
  refine ⟨hsame, hdone, ?_⟩
  intro hnames
  apply hdone
  show ∃ m, loadManifest st1.shaFile.data = .ok m
  have hload : ∃ m, loadManifest st1.shaFile.data = .ok m := by
    rw [w1, RewriteShaFile_eq]
    have := loadManifest_records_ok
      ((sortStrings st1.shaMap.keys).map (fun v => (st1.shaMap.getD v [], v))) (by
        intro r hr
        obtain ⟨v, hv, rfl⟩ := List.mem_map.mp hr
        have hv2 : v ∈ st1.shaMap.keys := (sortStrings_perm _).mem_iff.mp hv
        have hsome := (GoMap.get?_isSome_iff st1.shaMap v).mpr hv2
        rw [g1] at hsome
        have hvf : v ∈ removeSha1 files1 := by
          by_contra hc
          rw [if_neg hc] at hsome
          cases hsome
        obtain ⟨d, hd⟩ := f1 v hvf
        refine ⟨?_, hnames v hvf⟩
        have : st1.shaMap.getD v [] = d := by
          simp [GoMap.getD, g1, hvf, hd, Except.toOption]
        show '\n' ∉ st1.shaMap.getD v []
        rw [this]
        exact cutter_no_newline sha1 env1 _ d hd)
    simpa [List.map_map, Function.comp_def] using this
  exact hload

/-- Claim C8 on a directory of one file of three bytes: the first run starts
without a manifest and its pool delivers in order, the second run finds
`.sha1` in the listing and its pool delivers in reverse order. The first two
bytes of the input stand for its digest. -/
theorem recompute_all_twice_witness :
    mainRun ⟨true, false, false, false⟩
        (cutter (fun b => b.take 2) (fun _ => ⟨true, [1, 2, 3], fullRead BUFFER, id⟩))
        '/' ⟨['d']⟩ [['f']] []
      = .ok ⟨⟨[(['f'], ['0', '1', '0', '2'])]⟩,
          ⟨['0', '1', '0', '2', ' ', ' ', ' ', 'f', '\r', '\n'], 10⟩, [['d', '/', 'f']]⟩
    ∧ ∃ st2,
        mainRun ⟨true, false, true, false⟩
            (cutter (fun b => b.take 2)
              (fun _ => ⟨true, [1, 2, 3], fullRead BUFFER, List.reverse⟩))
            '/' ⟨['d']⟩ [dotSha1, ['f']] ['0', '1', '0', '2', ' ', ' ', ' ', 'f', '\r', '\n'] = .ok st2
        ∧ st2.shaFile.data = ['0', '1', '0', '2', ' ', ' ', ' ', 'f', '\r', '\n'] := by
  have hrun1 : mainRun ⟨true, false, false, false⟩
        (cutter (fun b => b.take 2) (fun _ => ⟨true, [1, 2, 3], fullRead BUFFER, id⟩))
        '/' ⟨['d']⟩ [['f']] []
      = .ok ⟨⟨[(['f'], ['0', '1', '0', '2'])]⟩,
          ⟨['0', '1', '0', '2', ' ', ' ', ' ', 'f', '\r', '\n'], 10⟩, [['d', '/', 'f']]⟩ := by decide
  exact ⟨hrun1,
    (recompute_all_twice (fun b => b.take 2) ⟨true, false, false, false⟩
      ⟨true, false, true, false⟩ '/' ⟨['d']⟩
      (fun _ => ⟨true, [1, 2, 3], fullRead BUFFER, id⟩)
      (fun _ => ⟨true, [1, 2, 3], fullRead BUFFER, List.reverse⟩)
      [['f']] [dotSha1, ['f']] [] _ rfl rfl rfl rfl (by decide)
      (fun _ => ⟨rfl, rfl, rfl⟩) (fun _ l => List.Perm.refl l)
      (fun _ l => List.reverse_perm l) hrun1).2.2 (by decide)⟩

/-- Claim C8 fails as stated: in a directory whose one file, empty, has a line
feed in its name, the first recompute-all run completes and writes a manifest;
the second run, started from that manifest, stops with a panic while loading
it and writes nothing. This holds whatever the digest function is. The
directory is `d` and the path separator is the slash. -/
theorem recompute_all_twice_fails :
    (∀ sha1 : Bytes → Bytes,
      mainRun ⟨true, false, false, false⟩
          (cutter sha1 (fun _ => ⟨true, [], fullRead BUFFER, id⟩)) '/' ⟨['d']⟩
          [['a', '\n', 'b']] []
        = .ok ⟨⟨[(['a', '\n', 'b'], sprintfHex (sha1 []))]⟩,
            ⟨sprintfHex (sha1 []) ++ [' ', ' ', ' ', 'a', '\n', 'b', '\r', '\n'],
              (sprintfHex (sha1 []) ++ [' ', ' ', ' ', 'a', '\n', 'b', '\r', '\n']).length⟩,
            [['d', '/', 'a', '\n', 'b']]⟩)
    ∧ (∀ sha1 : Bytes → Bytes,
      mainRun ⟨true, false, false, false⟩
          (cutter sha1 (fun _ => ⟨true, [], fullRead BUFFER, id⟩)) '/' ⟨['d']⟩
          [dotSha1, ['a', '\n', 'b']]
          (sprintfHex (sha1 []) ++ [' ', ' ', ' ', 'a', '\n', 'b', '\r', '\n'])
        = .error Stop.panic) := by
  refine ⟨?_, ?_⟩
  · intro sha1
    have hcut : ∀ v, cutter sha1 (fun _ => ⟨true, [], fullRead BUFFER, id⟩) v
        = .ok (sprintfHex (sha1 [])) := fun v => fileCutter_empty sha1 BUFFER _ rfl rfl
    have hload : loadManifest [] = .ok GoMap.empty := rfl
    have hrm : removeSha1 [['a', '\n', 'b']] = [['a', '\n', 'b']] := by decide
    have hsort : sortStrings [['a', '\n', 'b']] = [['a', '\n', 'b']] := by decide
    have hpath : filePath '/' ⟨['d']⟩ ['a', '\n', 'b'] = ['d', '/', 'a', '\n', 'b'] := by
      decide
    simp only [mainRun, hload, mainModes, hrm, clearMode, hashMode, hashEach, hcut, hpath,
      RewriteShaFile_eq]
    simp [GoMap.set, GoMap.delete, GoMap.empty, GoMap.keys, GoMap.getD, GoMap.get?, hsort,
      record, sep3, CRLF, computeOrphans, ClearOrphans]
  · intro sha1
    have hnl : '\n' ∉ sprintfHex (sha1 []) ++ [' ', ' ', ' ', 'a'] := by
      simp [sprintfHex_no_newline]
    have hrs := readStrings_line (sprintfHex (sha1 []) ++ [' ', ' ', ' ', 'a'])
      ['b', '\r', '\n'] hnl
    have htail : readStrings '\n' ['b', '\r', '\n']
        = [(['b', '\r', '\n'], none)] ++ [([], some ReadErr.EOF)] := by decide
    have htext : sprintfHex (sha1 []) ++ [' ', ' ', ' ', 'a', '\n', 'b', '\r', '\n']
        = (sprintfHex (sha1 []) ++ [' ', ' ', ' ', 'a']) ++ '\n' :: ['b', '\r', '\n'] := by
      simp
    have hpanic : loadManifest
        (sprintfHex (sha1 []) ++ [' ', ' ', ' ', 'a', '\n', 'b', '\r', '\n'])
        = .error Stop.panic := by
      rw [loadManifest, htext, hrs, htail, ← List.cons_append]
      apply loadLoop_some_panic
      · intro r hr
        simp only [List.mem_cons, List.mem_singleton] at hr
        simp only [List.not_mem_nil, or_false] at hr
        rcases hr with rfl | rfl <;> rfl
      · exact ⟨(['b', '\r', '\n'], none), by simp, by decide⟩
    simp only [mainRun, hpanic]

end Hashgen
